import Mathlib

/-!
Verification of the HMM part-of-speech tagger (`s1763241.py`).

The Python implementation stores Viterbi costs, i.e. `-log2` of
probabilities, as floating-point numbers, and selects transitions by
`min` over such costs (first minimal element wins on exact ties).
Probabilities produced by the Lidstone-smoothed estimator are exact
rationals, so we embed the decoder exactly over `ℚ`: every table cell
stores the probability `p` whose cost `-log2 p` the Python code stores,
and the cost-minimising selection becomes a probability-maximising
selection (first maximal element wins), which is the image of the
Python code under the strictly antitone map `p ↦ -log2 p`.  All claims
phrased in terms of costs are stated through `Real.logb 2` applied to
these exact rational table entries.
-/

namespace HMM

/-- A training corpus: a list of sentences, each a list of
`(word, tag)` pairs, exactly as `HMM.__init__` receives `train_data`. -/
abbrev Train : Type := List (List (String × String))

/-- Modelled from the spec: `nltk.util.unique_list` (library code, not in
the repository), described as "the ordered sequence of distinct tags in
first-occurrence order across all sentences (stable de-duplication)".
`seen` is the set of already-emitted elements. -/
def unique_aux {α : Type} [DecidableEq α] (seen : List α) : List α → List α
  | [] => []
  | x :: xs => if x ∈ seen then unique_aux seen xs else x :: unique_aux (x :: seen) xs

/-- Stable first-occurrence de-duplication (see `unique_aux`). -/
def unique_list {α : Type} [DecidableEq α] (l : List α) : List α :=
  unique_aux [] l

/-- The emission training events: `(tag, word.lower())` for every
`(word, tag)` pair of every training sentence, in corpus order
(`emission_model`, line 72). -/
def emissionData (tr : Train) : List (String × String) :=
  (List.flatten tr).map (fun p => (p.2, p.1.toLower))

/-- The state list: tags of the training corpus in first-occurrence
order (`emission_model`, line 75: `unique_list(tag for sent ... )`). -/
def states (tr : Train) : List String :=
  unique_list ((List.flatten tr).map Prod.snd)

/-- The `tags_words` list of `transition_model` (lines 119-124): for
each sentence, `('<s>','<s>')`, then the `(tag, word)` pairs of the
sentence, then `('</s>','</s>')`, all concatenated in corpus order. -/
def tags_words : Train → List (String × String)
  | [] => []
  | s :: rest =>
      (("<s>", "<s>") :: (s.map (fun p => (p.2, p.1)) ++ [("</s>", "</s>")]))
        ++ tags_words rest

/-- Bigrams as in `nltk.bigrams`: adjacent pairs of a list. -/
def bigrams {α : Type} (l : List α) : List (α × α) := l.zip l.tail

/-- The transition training events: bigrams of the flattened tag stream
(`transition_model`, lines 126-127). -/
def transitionData (tr : Train) : List (String × String) :=
  bigrams ((tags_words tr).map Prod.fst)

/-- Modelled from the spec: `nltk.FreqDist.N()` for one condition of a
`ConditionalFreqDist` — the total number of events recorded under
condition `c`. -/
def condN (data : List (String × String)) (c : String) : Nat :=
  data.countP (fun p => p.1 == c)

/-- The distinct values observed under condition `c`, in first-occurrence
order. -/
def condValues (data : List (String × String)) (c : String) : List String :=
  unique_list ((data.filter (fun p => p.1 == c)).map Prod.snd)

/-- Modelled from the spec: `nltk.FreqDist.B()` for one condition — the
number of distinct observed values under condition `c`. -/
def condB (data : List (String × String)) (c : String) : Nat :=
  (condValues data c).length

/-- Modelled from the spec: the probability assigned by
`LidstoneProbDist(f, 0.01, f.B()+1)` (the `lidstone_est` factory of
lines 69-70 and 113-114) to value `v` under condition `c`:
`(count + γ) / (N + (B + 1) * γ)` with `γ = 0.01`, where `count` is the
frequency of `v` under `c`, `N` the total count for `c` and `B` the
number of distinct observed values for `c`.  Exact in `ℚ`. -/
def lidstone_prob (data : List (String × String)) (c v : String) : ℚ :=
  ((data.count (c, v) : ℚ) + 1/100)
    / ((condN data c : ℚ) + ((condB data c : ℚ) + 1) * (1/100))

/-- Probability `self.emission_PD[s].prob(w)` for a trained model. -/
def eprob (tr : Train) (s w : String) : ℚ :=
  lidstone_prob (emissionData tr) s w

/-- Probability `self.transition_PD[a].prob(b)` for a trained model. -/
def tprob (tr : Train) (a b : String) : ℚ :=
  lidstone_prob (transitionData tr) a b

/-- Modelled from the spec: the conditional-distribution lookup behind
`elprob` — "fails with a DomainError if `tag` was never observed in
training (no distribution exists for it)"; on an observed tag it yields
the Lidstone-smoothed distribution for that tag.  We return the
probability whose base-2 logarithm `elprob` returns. -/
def elprob_lookup (tr : Train) (state word : String) : Option ℚ :=
  if state ∈ (emissionData tr).map Prod.fst then
    some (eprob tr state word)
  else none

/-- Modelled from the spec: the same lookup for `tlprob`. -/
def tlprob_lookup (tr : Train) (a b : String) : Option ℚ :=
  if a ∈ (transitionData tr).map Prod.fst then
    some (tprob tr a b)
  else none

/-- The per-sentence decoding tables: `self.viterbi` maps a tag to its
column of stored values (we store the probability whose cost the Python
code stores) and `self.backpointer` maps a tag to its column of
predecessor tags.  Tags that are not dictionary keys map to `[]`. -/
structure DP where
  viterbi : String → List ℚ
  backpointer : String → List String

/-- Python list indexing: non-negative indices from the front, negative
indices from the back, `none` when out of range. -/
def pyGet {α : Type} (l : List α) (i : Int) : Option α :=
  if 0 ≤ i then l.get? i.toNat
  else if (-i).toNat ≤ l.length then l.get? (l.length - (-i).toNat)
  else none

/-- Accessor `HMM.get_viterbi_value` (lines 228-242): `self.viterbi[state][step]`,
with Python's negative-index semantics. -/
def get_viterbi_value (dp : DP) (state : String) (step : Int) : Option ℚ :=
  pyGet (dp.viterbi state) step

/-- Accessor `HMM.get_backpointer_value` (lines 246-260):
`self.backpointer[state][step]`. -/
def get_backpointer_value (dp : DP) (state : String) (step : Int) : Option String :=
  pyGet (dp.backpointer state) step

/-- Method `HMM.initialise` (lines 159-179): discards the previous decoding
tables (`self.viterbi = {}`, `self.backpointer = {}` — hence the ignored
`_prev` argument) and, for every tag `s` of `states`, stores the step-0
value for the cost `-log2 P(s | <s>) - log2 P(observation | s)` (we
store the probability `P(s | <s>) * P(observation | s)`) and the step-0
backpointer `<s>`. -/
def initialise (tr : Train) (_prev : DP) (observation : String) : DP :=
  { viterbi := fun s =>
      if s ∈ states tr then [tprob tr "<s>" s * eprob tr s observation] else []
    backpointer := fun s =>
      if s ∈ states tr then ["<s>"] else [] }

/-- Python's `min` over a non-empty list of `(key, payload)` pairs,
transported to probability space: the running best is replaced only when
the candidate's key is strictly better, so the first optimal element
wins.  In cost space "strictly better" is a strictly smaller cost; for
the stored probabilities it is a strictly larger probability. -/
def pickBest : (ℚ × String) → List (ℚ × String) → (ℚ × String)
  | b, [] => b
  | b, x :: xs => pickBest (if b.1 < x.1 then x else b) xs

/-- Python `min(tmp_values, key=...)` over candidate pairs: first optimal
element of the candidate list (`(0, "")` for the empty list, which the
decoder never builds when `states` is non-empty). -/
def min_val (l : List (ℚ × String)) : ℚ × String :=
  match l with
  | [] => (0, "")
  | x :: xs => pickBest x xs

/-- The `tmp_values` candidate list of `HMM.tag` (lines 202-205) at step
`t` for current tag `s` and word `w = observations[t]`: one entry per
previous tag `p` of `states`, in `states` order, pairing the candidate
value with `p`.  The stored probability `viterbi[p][t-1] * P(s | p) *
P(w | s)` corresponds to the code's candidate cost
`viterbi[p][t-1] - log2 P(s | p) - log2 P(w | s)`. -/
def candidates (tr : Train) (dp : DP) (w : String) (t : Nat) (s : String) :
    List (ℚ × String) :=
  (states tr).map
    (fun p => ((dp.viterbi p).getD (t - 1) 0 * tprob tr p s * eprob tr s w, p))

/-- Pointwise update of a table row. -/
def upd {α : Type} (f : String → α) (s : String) (v : α) : String → α :=
  fun x => if x = s then v else f x

/-- The body of the inner loop of `HMM.tag` (lines 198-208) for one
current tag `s`: append the best candidate's value to `viterbi[s]` and
its previous tag to `backpointer[s]`. -/
def stepState (tr : Train) (w : String) (t : Nat) (dp : DP) (s : String) : DP :=
  let best := min_val (candidates tr dp w t s)
  { viterbi := upd dp.viterbi s (dp.viterbi s ++ [best.1])
    backpointer := upd dp.backpointer s (dp.backpointer s ++ [best.2]) }

/-- One iteration of the outer loop of `HMM.tag`: the inner loop over
all current tags `s` in `states` order. -/
def viterbiStep (tr : Train) (dp : DP) (w : String) (t : Nat) : DP :=
  (states tr).foldl (stepState tr w t) dp

/-- The decoder after the outer loop has run for `t = 1, ..., T`. -/
def afterSteps (tr : Train) (obs : List String) (dp : DP) (T : Nat) : DP :=
  (List.range' 1 T).foldl (fun d t => viterbiStep tr d (obs.getD t "") t) dp

/-- The full outer loop of `HMM.tag`:
`for t in range(1, len(observations))`. -/
def advance (tr : Train) (dp : DP) (obs : List String) : DP :=
  afterSteps tr obs dp (obs.length - 1)

/-- The termination step of `HMM.tag` (lines 211-212): the tag selected
by `min` over `-log2 P(</s> | state) + viterbi[state][n-1]` — in
probability space, the first tag maximising
`P(</s> | state) * viterbi[state][n-1]`.  For `n = 0` the index `-1`
reads the last stored entry, exactly like the Python code. -/
def bestLastTag (tr : Train) (dp : DP) (n : Nat) : String :=
  (min_val ((states tr).map
    (fun p => (tprob tr p "</s>" * (get_viterbi_value dp p ((n : Int) - 1)).getD 0,
               p)))).2

/-- The backpointer walk of `HMM.tag` (lines 217-222): taking `cur` as
the tag at position `t`, produce the tags at positions `0, ..., t`.  The
Python loop appends `backpointer[tags[n-1-step]][step]` for
`step = n-1, ..., 1` and then reverses; unrolling the list indices shows
it returns exactly this chain of backpointer lookups in left-to-right
order. -/
def reconstructTags (dp : DP) : String → Nat → List String
  | cur, 0 => [cur]
  | cur, t + 1 =>
      reconstructTags dp ((get_backpointer_value dp cur ((t : Int) + 1)).getD "") t
        ++ [cur]

/-- Method `HMM.tag` (lines 185-224): run the recurrence for steps
`1, ..., n-1`, select the final tag by the termination step, and walk
the backpointers; returns one tag per word. -/
def tag (tr : Train) (dp : DP) (observations : List String) : List String :=
  let dp2 := advance tr dp observations
  reconstructTags dp2 (bestLastTag tr dp2 observations.length)
    (observations.length - 1)

/-! ### Basic lemmas about the training-side definitions -/

theorem mem_unique_aux {α : Type} [DecidableEq α] (seen : List α) (l : List α)
    (x : α) : x ∈ unique_aux seen l ↔ x ∈ l ∧ x ∉ seen := by
  induction l generalizing seen with
  | nil => simp [unique_aux]
  | cons y ys ih =>
      simp only [unique_aux]
      by_cases hy : y ∈ seen
      · rw [if_pos hy, ih]
        simp only [List.mem_cons]
        constructor
        · rintro ⟨hx, hs⟩; exact ⟨Or.inr hx, hs⟩
        · rintro ⟨rfl | hx, hs⟩
          · exact absurd hy hs
          · exact ⟨hx, hs⟩
      · rw [if_neg hy]
        simp only [List.mem_cons, ih, List.mem_cons]
        constructor
        · rintro (rfl | ⟨hx, hs⟩)
          · exact ⟨Or.inl rfl, hy⟩
          · exact ⟨Or.inr hx, fun hmem => hs (Or.inr hmem)⟩
        · rintro ⟨rfl | hx, hs⟩
          · exact Or.inl rfl
          · by_cases hxy : x = y
            · exact Or.inl hxy
            · refine Or.inr ⟨hx, ?_⟩
              rintro (h1 | h1)
              · exact hxy h1
              · exact hs h1

theorem nodup_unique_aux {α : Type} [DecidableEq α] (seen : List α)
    (l : List α) : (unique_aux seen l).Nodup := by
  induction l generalizing seen with
  | nil => simp [unique_aux]
  | cons y ys ih =>
      simp only [unique_aux]
      by_cases hy : y ∈ seen
      · rw [if_pos hy]; exact ih seen
      · rw [if_neg hy]
        exact List.nodup_cons.mpr
          ⟨fun h => ((mem_unique_aux _ _ _).mp h).2 (List.mem_cons_self _ _),
           ih (y :: seen)⟩

theorem mem_unique_list {α : Type} [DecidableEq α] (l : List α) (x : α) :
    x ∈ unique_list l ↔ x ∈ l := by
  simp [unique_list, mem_unique_aux]

theorem nodup_unique_list {α : Type} [DecidableEq α] (l : List α) :
    (unique_list l).Nodup :=
  nodup_unique_aux [] l

/-- The count of value `v` under condition `c` never exceeds the total
count of condition `c`. -/
theorem count_le_condN (data : List (String × String)) (c v : String) :
    data.count (c, v) ≤ condN data c := by
  unfold condN
  rw [List.count]
  refine List.countP_mono_left ?_
  intro a _ ha
  have : a = (c, v) := by simpa using ha
  simp [this]

/-- The Lidstone denominator is positive. -/
theorem lidstone_den_pos (data : List (String × String)) (c : String) :
    0 < (condN data c : ℚ) + ((condB data c : ℚ) + 1) * (1/100) := by
  have h1 : (0 : ℚ) ≤ (condN data c : ℚ) := Nat.cast_nonneg _
  have h2 : (0 : ℚ) < ((condB data c : ℚ) + 1) * (1/100) := by
    have : (0 : ℚ) ≤ (condB data c : ℚ) := Nat.cast_nonneg _
    nlinarith
  linarith

/-- Every Lidstone-smoothed probability is strictly positive. -/
theorem lidstone_pos (data : List (String × String)) (c v : String) :
    0 < lidstone_prob data c v := by
  unfold lidstone_prob
  refine div_pos ?_ (lidstone_den_pos data c)
  have : (0 : ℚ) ≤ (data.count (c, v) : ℚ) := Nat.cast_nonneg _
  linarith

/-- Every Lidstone-smoothed probability is at most one. -/
theorem lidstone_le_one (data : List (String × String)) (c v : String) :
    lidstone_prob data c v ≤ 1 := by
  unfold lidstone_prob
  rw [div_le_one (lidstone_den_pos data c)]
  have hcount : ((data.count (c, v) : ℚ)) ≤ (condN data c : ℚ) := by
    exact_mod_cast count_le_condN data c v
  have hB : (0 : ℚ) ≤ (condB data c : ℚ) := Nat.cast_nonneg _
  nlinarith

theorem eprob_pos (tr : Train) (s w : String) : 0 < eprob tr s w :=
  lidstone_pos _ _ _

theorem eprob_le_one (tr : Train) (s w : String) : eprob tr s w ≤ 1 :=
  lidstone_le_one _ _ _

theorem tprob_pos (tr : Train) (a b : String) : 0 < tprob tr a b :=
  lidstone_pos _ _ _

theorem tprob_le_one (tr : Train) (a b : String) : tprob tr a b ≤ 1 :=
  lidstone_le_one _ _ _

/-! ### The first-optimal selection -/

theorem pickBest_eq_or_mem (b : ℚ × String) (xs : List (ℚ × String)) :
    pickBest b xs = b ∨ pickBest b xs ∈ xs := by
  induction xs generalizing b with
  | nil => exact Or.inl rfl
  | cons x xs ih =>
      simp only [pickBest]
      by_cases h : b.1 < x.1
      · rw [if_pos h]
        rcases ih x with h' | h'
        · exact Or.inr (by rw [h']; exact List.mem_cons_self _ _)
        · exact Or.inr (List.mem_cons_of_mem _ h')
      · rw [if_neg h]
        rcases ih b with h' | h'
        · exact Or.inl h'
        · exact Or.inr (List.mem_cons_of_mem _ h')

theorem le_pickBest_init (b : ℚ × String) (xs : List (ℚ × String)) :
    b.1 ≤ (pickBest b xs).1 := by
  induction xs generalizing b with
  | nil => exact le_rfl
  | cons x xs ih =>
      simp only [pickBest]
      by_cases h : b.1 < x.1
      · rw [if_pos h]; exact le_of_lt (lt_of_lt_of_le h (ih x))
      · rw [if_neg h]; exact ih b

theorem le_pickBest_mem (b : ℚ × String) (xs : List (ℚ × String)) :
    ∀ x ∈ xs, x.1 ≤ (pickBest b xs).1 := by
  induction xs generalizing b with
  | nil => intro x hx; cases hx
  | cons y ys ih =>
      intro x hx
      simp only [pickBest]
      by_cases h : b.1 < y.1
      · rw [if_pos h]
        rcases List.mem_cons.mp hx with rfl | hx'
        · exact le_pickBest_init x ys
        · exact ih y x hx'
      · rw [if_neg h]
        rcases List.mem_cons.mp hx with rfl | hx'
        · exact le_trans (not_lt.mp h) (le_pickBest_init b ys)
        · exact ih b x hx'

/-- Python's `min` keeps the running best on ties, so the selected
element strictly beats the initial element and everything listed before
it. -/
theorem pickBest_first (b : ℚ × String) (xs : List (ℚ × String)) :
    pickBest b xs = b ∨
      ∃ pre post, xs = pre ++ pickBest b xs :: post ∧
        b.1 < (pickBest b xs).1 ∧
        ∀ x ∈ pre, x.1 < (pickBest b xs).1 := by
  induction xs generalizing b with
  | nil => exact Or.inl rfl
  | cons y ys ih =>
      simp only [pickBest]
      by_cases h : b.1 < y.1
      · rw [if_pos h]
        rcases ih y with h' | ⟨pre, post, heq, hlt, hpre⟩
        · refine Or.inr ⟨[], ys, ?_, ?_, ?_⟩
          · rw [h']; rfl
          · rw [h']; exact h
          · intro x hx; cases hx
        · refine Or.inr ⟨y :: pre, post, ?_, ?_, ?_⟩
          · exact congrArg (List.cons y) heq
          · exact lt_trans h hlt
          · intro x hx
            rcases List.mem_cons.mp hx with rfl | hx'
            · exact hlt
            · exact hpre x hx'
      · rw [if_neg h]
        rcases ih b with h' | ⟨pre, post, heq, hlt, hpre⟩
        · exact Or.inl h'
        · refine Or.inr ⟨y :: pre, post, ?_, ?_, ?_⟩
          · exact congrArg (List.cons y) heq
          · exact hlt
          · intro x hx
            rcases List.mem_cons.mp hx with rfl | hx'
            · exact lt_of_le_of_lt (not_lt.mp h) hlt
            · exact hpre x hx'

theorem min_val_mem {l : List (ℚ × String)} (h : l ≠ []) : min_val l ∈ l := by
  match l with
  | [] => exact absurd rfl h
  | x :: xs =>
      simp only [min_val]
      rcases pickBest_eq_or_mem x xs with h' | h'
      · rw [h']; exact List.mem_cons_self _ _
      · exact List.mem_cons_of_mem _ h'

theorem le_min_val {l : List (ℚ × String)} :
    ∀ y ∈ l, y.1 ≤ (min_val l).1 := by
  match l with
  | [] => intro y hy; cases hy
  | x :: xs =>
      intro y hy
      simp only [min_val]
      rcases List.mem_cons.mp hy with rfl | hy'
      · exact le_pickBest_init y xs
      · exact le_pickBest_mem x xs y hy'

/-- The selected element is the first optimal one: everything strictly
before it in the list has a strictly smaller key. -/
theorem min_val_first {l : List (ℚ × String)} (h : l ≠ []) :
    ∃ pre post, l = pre ++ min_val l :: post ∧
      ∀ y ∈ pre, y.1 < (min_val l).1 := by
  match l with
  | [] => exact absurd rfl h
  | x :: xs =>
      simp only [min_val]
      rcases pickBest_first x xs with h' | ⟨pre, post, heq, hlt, hpre⟩
      · refine ⟨[], xs, ?_, ?_⟩
        · rw [h']; rfl
        · intro y hy; cases hy
      · refine ⟨x :: pre, post, ?_, ?_⟩
        · exact congrArg (List.cons x) heq
        · intro y hy
          rcases List.mem_cons.mp hy with rfl | hy'
          · exact hlt
          · exact hpre y hy'

/-! ### Decoder invariants -/

/-- The table entry `viterbi[s][t]` (as a stored probability). -/
def vv (dp : DP) (s : String) (t : Nat) : ℚ := (dp.viterbi s).getD t 0

/-- The table entry `backpointer[s][t]`. -/
def bb (dp : DP) (s : String) (t : Nat) : String := (dp.backpointer s).getD t ""

/-- The candidate list of one inner-loop iteration, written against an
arbitrary previous column `col`. -/
def candList (tr : Train) (col : String → ℚ) (w : String) (s : String) :
    List (ℚ × String) :=
  (states tr).map (fun p => (col p * tprob tr p s * eprob tr s w, p))

theorem getD_append_lt {α : Type} {l : List α} {x d : α} {i : Nat}
    (h : i < l.length) : (l ++ [x]).getD i d = l.getD i d := by
  rw [List.getD_eq_getElem?_getD, List.getD_eq_getElem?_getD,
    List.getElem?_append_left h]

theorem getD_append_len {α : Type} (l : List α) (x d : α) :
    (l ++ [x]).getD l.length d = x := by
  rw [List.getD_eq_getElem?_getD, List.getElem?_append_right le_rfl]
  simp

theorem stepState_viterbi_same (tr : Train) (w : String) (t : Nat) (dp : DP)
    (s : String) :
    (stepState tr w t dp s).viterbi s
      = dp.viterbi s ++ [(min_val (candidates tr dp w t s)).1] := by
  simp [stepState, upd]

theorem stepState_backpointer_same (tr : Train) (w : String) (t : Nat)
    (dp : DP) (s : String) :
    (stepState tr w t dp s).backpointer s
      = dp.backpointer s ++ [(min_val (candidates tr dp w t s)).2] := by
  simp [stepState, upd]

theorem stepState_viterbi_ne (tr : Train) (w : String) (t : Nat) (dp : DP)
    {s s' : String} (h : s' ≠ s) :
    (stepState tr w t dp s).viterbi s' = dp.viterbi s' := by
  simp [stepState, upd, h]

theorem stepState_backpointer_ne (tr : Train) (w : String) (t : Nat) (dp : DP)
    {s s' : String} (h : s' ≠ s) :
    (stepState tr w t dp s).backpointer s' = dp.backpointer s' := by
  simp [stepState, upd, h]

/-- Candidates only read the previous column. -/
theorem candidates_eq_candList (tr : Train) (dp : DP) (w : String) (t : Nat)
    (s : String) (col : String → ℚ)
    (hcol : ∀ p ∈ states tr, (dp.viterbi p).getD (t - 1) 0 = col p) :
    candidates tr dp w t s = candList tr col w s := by
  unfold candidates candList
  refine List.map_congr_left ?_
  intro p hp
  rw [hcol p hp]

/-- Effect of the inner loop over a duplicate-free sublist `l` of the
states: each processed tag gets exactly one value and one backpointer
appended, computed from the (unchanged) previous column, and no other
row is touched. -/
theorem foldl_stepState_spec (tr : Train) (w : String) (t : Nat)
    (col : String → ℚ) :
    ∀ (l : List String), l.Nodup → (∀ x ∈ l, x ∈ states tr) →
    ∀ (dp : DP),
    (∀ p ∈ states tr,
      (dp.viterbi p).getD (t - 1) 0 = col p ∧ t - 1 < (dp.viterbi p).length) →
    (∀ s ∈ l,
      (l.foldl (stepState tr w t) dp).viterbi s
          = dp.viterbi s ++ [(min_val (candList tr col w s)).1] ∧
      (l.foldl (stepState tr w t) dp).backpointer s
          = dp.backpointer s ++ [(min_val (candList tr col w s)).2]) ∧
    (∀ s, s ∉ l →
      (l.foldl (stepState tr w t) dp).viterbi s = dp.viterbi s ∧
      (l.foldl (stepState tr w t) dp).backpointer s = dp.backpointer s) := by
  intro l
  induction l with
  | nil =>
      intro _ _ dp _
      exact ⟨fun s hs => absurd hs (List.not_mem_nil s), fun s _ => ⟨rfl, rfl⟩⟩
  | cons s0 rest ih =>
      intro hnd hsub dp hcol
      have hs0 : s0 ∈ states tr := hsub s0 (List.mem_cons_self _ _)
      have hnd' := List.nodup_cons.mp hnd
      have hcand :
          candidates tr dp w t s0 = candList tr col w s0 :=
        candidates_eq_candList tr dp w t s0 col (fun p hp => (hcol p hp).1)
      set dp1 := stepState tr w t dp s0 with hdp1
      have hv1 : dp1.viterbi s0
          = dp.viterbi s0 ++ [(min_val (candList tr col w s0)).1] := by
        rw [hdp1, stepState_viterbi_same, hcand]
      have hb1 : dp1.backpointer s0
          = dp.backpointer s0 ++ [(min_val (candList tr col w s0)).2] := by
        rw [hdp1, stepState_backpointer_same, hcand]
      have hv1' : ∀ s', s' ≠ s0 → dp1.viterbi s' = dp.viterbi s' :=
        fun s' h => stepState_viterbi_ne tr w t dp h
      have hb1' : ∀ s', s' ≠ s0 → dp1.backpointer s' = dp.backpointer s' :=
        fun s' h => stepState_backpointer_ne tr w t dp h
      have hcol1 : ∀ p ∈ states tr,
          (dp1.viterbi p).getD (t - 1) 0 = col p ∧
          t - 1 < (dp1.viterbi p).length := by
        intro p hp
        by_cases hps : p = s0
        · subst hps
          rw [hv1]
          constructor
          · rw [getD_append_lt (hcol p hp).2]; exact (hcol p hp).1
          · rw [List.length_append]
            exact Nat.lt_succ_of_lt (hcol p hp).2
        · rw [hv1' p hps]; exact hcol p hp
      obtain ⟨hin, hout⟩ :=
        ih hnd'.2 (fun x hx => hsub x (List.mem_cons_of_mem _ hx)) dp1 hcol1
      have hfold : (s0 :: rest).foldl (stepState tr w t) dp
          = rest.foldl (stepState tr w t) dp1 := rfl
      constructor
      · intro s hs
        rcases List.mem_cons.mp hs with rfl | hs'
        · have hnot : s ∉ rest := hnd'.1
          obtain ⟨hvo, hbo⟩ := hout s hnot
          rw [hfold, hvo, hbo, hv1, hb1]
          exact ⟨rfl, rfl⟩
        · have hne : s ≠ s0 := fun h => hnd'.1 (h ▸ hs')
          obtain ⟨hvi, hbi⟩ := hin s hs'
          rw [hfold, hvi, hbi, hv1' s hne, hb1' s hne]
          exact ⟨rfl, rfl⟩
      · intro s hs
        have hs1 : s ∉ rest := fun h => hs (List.mem_cons_of_mem _ h)
        have hne : s ≠ s0 := fun h => hs (h ▸ List.mem_cons_self _ _)
        obtain ⟨hvo, hbo⟩ := hout s hs1
        rw [hfold, hvo, hbo, hv1' s hne, hb1' s hne]
        exact ⟨rfl, rfl⟩

/-- The decoding-table invariant after the outer loop has processed
steps `1, ..., T` for a sentence whose first word `w` was passed to
`initialise`: every row holds `T + 1` entries; column `0` holds the
initialisation values; every later column satisfies the recurrence with
the first-optimal selection over the previous column; and every stored
probability lies in `(0, 1]`. -/
def Inv (tr : Train) (w : String) (obs : List String) (T : Nat) (dp : DP) :
    Prop :=
  ∀ s ∈ states tr,
    (dp.viterbi s).length = T + 1 ∧
    (dp.backpointer s).length = T + 1 ∧
    vv dp s 0 = tprob tr "<s>" s * eprob tr s w ∧
    bb dp s 0 = "<s>" ∧
    (∀ t', 1 ≤ t' → t' ≤ T →
      vv dp s t'
          = (min_val (candList tr (fun p => vv dp p (t' - 1)) (obs.getD t' "") s)).1 ∧
      bb dp s t'
          = (min_val (candList tr (fun p => vv dp p (t' - 1)) (obs.getD t' "") s)).2) ∧
    (∀ t', t' ≤ T → 0 < vv dp s t' ∧ vv dp s t' ≤ 1)

theorem inv_initialise (tr : Train) (prev : DP) (w : String)
    (obs : List String) : Inv tr w obs 0 (initialise tr prev w) := by
  intro s hs
  have hv : (initialise tr prev w).viterbi s
      = [tprob tr "<s>" s * eprob tr s w] := by
    simp [initialise, hs]
  have hb : (initialise tr prev w).backpointer s = ["<s>"] := by
    simp [initialise, hs]
  refine ⟨by rw [hv]; rfl, by rw [hb]; rfl, ?_, ?_, ?_, ?_⟩
  · rw [vv, hv]; rfl
  · rw [bb, hb]; rfl
  · intro t' h1 h2; omega
  · intro t' h2
    have ht : t' = 0 := Nat.le_zero.mp h2
    subst ht
    rw [vv, hv]
    constructor
    · exact mul_pos (tprob_pos tr "<s>" s) (eprob_pos tr s w)
    · exact mul_le_one₀ (tprob_le_one tr "<s>" s)
        (le_of_lt (eprob_pos tr s w)) (eprob_le_one tr s w)

theorem inv_step (tr : Train) (w : String) (obs : List String) (T : Nat)
    (dp : DP) (hInv : Inv tr w obs T dp) :
    Inv tr w obs (T + 1) (viterbiStep tr dp (obs.getD (T + 1) "") (T + 1)) := by
  set w' := obs.getD (T + 1) "" with hw'
  have hcol : ∀ p ∈ states tr,
      (dp.viterbi p).getD (T + 1 - 1) 0 = vv dp p T ∧
      T + 1 - 1 < (dp.viterbi p).length := by
    intro p hp
    obtain ⟨hlen, _, _, _, _, _⟩ := hInv p hp
    constructor
    · rfl
    · rw [hlen]; omega
  obtain ⟨hin, _⟩ :=
    foldl_stepState_spec tr w' (T + 1) (fun p => vv dp p T) (states tr)
      (nodup_unique_list _) (fun x hx => hx) dp hcol
  set r := (states tr).foldl (stepState tr w' (T + 1)) dp with hr
  have hstep : viterbiStep tr dp w' (T + 1) = r := rfl
  rw [hstep]
  intro s hs
  obtain ⟨hlen, hblen, hvv0, hbb0, hrec, hpos⟩ := hInv s hs
  obtain ⟨hvs, hbs⟩ := hin s hs
  -- entries below the new column are unchanged, for every state row
  have hvv_stable : ∀ p ∈ states tr, ∀ t', t' ≤ T → vv r p t' = vv dp p t' := by
    intro p hp t' ht'
    obtain ⟨hlenp, _, _, _, _, _⟩ := hInv p hp
    obtain ⟨hvp, _⟩ := hin p hp
    rw [vv, vv, hvp, getD_append_lt]
    rw [hlenp]; omega
  have hbb_stable : ∀ p ∈ states tr, ∀ t', t' ≤ T → bb r p t' = bb dp p t' := by
    intro p hp t' ht'
    obtain ⟨_, hblenp, _, _, _, _⟩ := hInv p hp
    obtain ⟨_, hbp⟩ := hin p hp
    rw [bb, bb, hbp, getD_append_lt]
    rw [hblenp]; omega
  have hSne : states tr ≠ [] := List.ne_nil_of_mem hs
  -- the new column holds the first-optimal candidate of the old column
  have hnewv : vv r s (T + 1)
      = (min_val (candList tr (fun p => vv dp p T) w' s)).1 := by
    rw [vv, hvs, ← hlen, getD_append_len]
  have hnewb : bb r s (T + 1)
      = (min_val (candList tr (fun p => vv dp p T) w' s)).2 := by
    rw [bb, hbs, ← hblen, getD_append_len]
  refine ⟨?_, ?_, ?_, ?_, ?_, ?_⟩
  · rw [hvs, List.length_append, hlen]; rfl
  · rw [hbs, List.length_append, hblen]; rfl
  · rw [hvv_stable s hs 0 (Nat.zero_le T)]; exact hvv0
  · rw [hbb_stable s hs 0 (Nat.zero_le T)]; exact hbb0
  · intro t' h1 h2
    rcases Nat.lt_or_ge t' (T + 1) with hlt | hge
    · have ht'T : t' ≤ T := Nat.lt_succ_iff.mp hlt
      have hcl : candList tr (fun p => vv r p (t' - 1)) (obs.getD t' "") s
          = candList tr (fun p => vv dp p (t' - 1)) (obs.getD t' "") s := by
        unfold candList
        refine List.map_congr_left ?_
        intro p hp
        dsimp only
        rw [hvv_stable p hp (t' - 1) (le_trans (Nat.sub_le t' 1) ht'T)]
      rw [hvv_stable s hs t' ht'T, hbb_stable s hs t' ht'T, hcl]
      exact hrec t' h1 ht'T
    · have ht' : t' = T + 1 := le_antisymm h2 hge
      subst ht'
      have hcl : candList tr (fun p => vv r p (T + 1 - 1)) (obs.getD (T + 1) "") s
          = candList tr (fun p => vv dp p T) w' s := by
        unfold candList
        refine List.map_congr_left ?_
        intro p hp
        dsimp only
        rw [hvv_stable p hp (T + 1 - 1) (by omega)]
        rfl
      rw [hcl, hnewv, hnewb]
      exact ⟨rfl, rfl⟩
  · intro t' h2
    rcases Nat.lt_or_ge t' (T + 1) with hlt | hge
    · have ht'T : t' ≤ T := Nat.lt_succ_iff.mp hlt
      rw [hvv_stable s hs t' ht'T]
      exact hpos t' ht'T
    · have ht' : t' = T + 1 := le_antisymm h2 hge
      subst ht'
      rw [hnewv]
      have hne : candList tr (fun p => vv dp p T) w' s ≠ [] := by
        unfold candList
        intro h
        exact hSne (List.map_eq_nil_iff.mp h)
      have hmem := min_val_mem hne
      obtain ⟨p, hp, hpe⟩ := List.mem_map.mp hmem
      obtain ⟨hpp, hp1⟩ := (hInv p hp).2.2.2.2.2 T le_rfl
      have hv : (min_val (candList tr (fun p => vv dp p T) w' s)).1
          = vv dp p T * tprob tr p s * eprob tr s w' := by
        rw [← hpe]
      rw [hv]
      constructor
      · exact mul_pos (mul_pos hpp (tprob_pos tr p s)) (eprob_pos tr s w')
      · have h1 : vv dp p T * tprob tr p s ≤ 1 :=
          mul_le_one₀ hp1 (le_of_lt (tprob_pos tr p s)) (tprob_le_one tr p s)
        exact mul_le_one₀ h1 (le_of_lt (eprob_pos tr s w')) (eprob_le_one tr s w')

theorem inv_afterSteps (tr : Train) (prev : DP) (w : String)
    (obs : List String) (T : Nat) :
    Inv tr w obs T (afterSteps tr obs (initialise tr prev w) T) := by
  induction T with
  | zero => exact inv_initialise tr prev w obs
  | succ T ih =>
      have hconcat : List.range' 1 (T + 1) = List.range' 1 T ++ [1 + T] := by
        exact List.range'_1_concat 1 T
      have : afterSteps tr obs (initialise tr prev w) (T + 1)
          = viterbiStep tr (afterSteps tr obs (initialise tr prev w) T)
              (obs.getD (1 + T) "") (1 + T) := by
        unfold afterSteps
        rw [hconcat, List.foldl_append]
        rfl
      rw [this, Nat.add_comm 1 T]
      exact inv_step tr w obs T _ ih

/-! ### Path probabilities and Viterbi optimality -/

/-- The probability contributed by tagging `obs[i], obs[i+1], ...` with
the given tags, entering from previous tag `prev`: for each tag, one
transition and one emission factor. -/
def chainProb (tr : Train) (obs : List String) : String → Nat → List String → ℚ
  | _, _, [] => 1
  | prev, i, s :: rest =>
      tprob tr prev s * eprob tr s (obs.getD i "")
        * chainProb tr obs s (i + 1) rest

/-- The probability of a tagged sentence start: first transition from
`<s>`, the first emission generated from the word `w` that was passed to
`initialise`, then the chain over `obs[1], obs[2], ...`. -/
def prefProb (tr : Train) (w : String) (obs : List String) : List String → ℚ
  | [] => 1
  | t0 :: rest => tprob tr "<s>" t0 * eprob tr t0 w * chainProb tr obs t0 1 rest

/-- The probability of a complete tag path, including the final
transition into `</s>`. -/
def fullSeqProb (tr : Train) (w : String) (obs : List String)
    (ts : List String) : ℚ :=
  prefProb tr w obs ts * tprob tr (ts.getLastD "") "</s>"

theorem chainProb_snoc (tr : Train) (obs : List String) :
    ∀ (l : List String) (prev : String) (i : Nat) (s : String),
    chainProb tr obs prev i (l ++ [s])
      = chainProb tr obs prev i l * tprob tr (l.getLastD prev) s
          * eprob tr s (obs.getD (i + l.length) "") := by
  intro l
  induction l with
  | nil =>
      intro prev i s
      simp [chainProb]
  | cons x xs ih =>
      intro prev i s
      have hcons : (x :: xs) ++ [s] = x :: (xs ++ [s]) := rfl
      rw [hcons]
      show tprob tr prev x * eprob tr x (obs.getD i "")
            * chainProb tr obs x (i + 1) (xs ++ [s]) = _
      rw [ih x (i + 1) s]
      have hl : (x :: xs).getLastD prev = xs.getLastD x := List.getLastD_cons prev x xs
      rw [hl]
      have hi : i + 1 + xs.length = i + (x :: xs).length := by
        simp [List.length_cons]; omega
      rw [hi]
      show _ = tprob tr prev x * eprob tr x (obs.getD i "")
            * chainProb tr obs x (i + 1) xs * tprob tr (xs.getLastD x) s
            * eprob tr s (obs.getD (i + (x :: xs).length) "")
      ring

theorem prefProb_snoc (tr : Train) (w : String) (obs : List String)
    (l : List String) (hl : l ≠ []) (s : String) :
    prefProb tr w obs (l ++ [s])
      = prefProb tr w obs l * tprob tr (l.getLastD "") s
          * eprob tr s (obs.getD l.length "") := by
  match l, hl with
  | t0 :: rest, _ =>
      have hcons : (t0 :: rest) ++ [s] = t0 :: (rest ++ [s]) := rfl
      rw [hcons]
      show tprob tr "<s>" t0 * eprob tr t0 w * chainProb tr obs t0 1 (rest ++ [s]) = _
      rw [chainProb_snoc tr obs rest t0 1 s]
      have hl2 : (t0 :: rest).getLastD "" = rest.getLastD t0 :=
        List.getLastD_cons "" t0 rest
      have hi : 1 + rest.length = (t0 :: rest).length := by
        simp [List.length_cons]; omega
      rw [hl2, hi]
      show _ = tprob tr "<s>" t0 * eprob tr t0 w * chainProb tr obs t0 1 rest
            * tprob tr (rest.getLastD t0) s
            * eprob tr s (obs.getD (t0 :: rest).length "")
      ring

/-- Reading a Python list at a non-negative index and defaulting equals
`List.getD`. -/
theorem pyGet_natCast_getD {α : Type} (l : List α) (t : Nat) (d : α) :
    (pyGet l (t : Int)).getD d = l.getD t d := by
  unfold pyGet
  rw [if_pos (by exact_mod_cast Nat.zero_le t)]
  rw [Int.toNat_natCast]
  rw [List.get?_eq_getElem?, ← List.getD_eq_getElem?_getD]

/-- The selected candidate carries the value computed from its own
payload tag, which is a member of `states`. -/
theorem min_val_candList_eq (tr : Train) (col : String → ℚ) (w s : String)
    (hne : states tr ≠ []) :
    (min_val (candList tr col w s)).1
        = col (min_val (candList tr col w s)).2
            * tprob tr (min_val (candList tr col w s)).2 s * eprob tr s w ∧
      (min_val (candList tr col w s)).2 ∈ states tr := by
  unfold candList
  have hlne :
      (states tr).map (fun p => (col p * tprob tr p s * eprob tr s w, p)) ≠ [] :=
    fun h => hne (List.map_eq_nil_iff.mp h)
  obtain ⟨q, hq, hqe⟩ := List.mem_map.mp (min_val_mem hlne)
  constructor
  · rw [← hqe]
  · rw [← hqe]; exact hq

theorem afterSteps_zero (tr : Train) (obs : List String) (d : DP) :
    afterSteps tr obs d 0 = d := rfl

theorem afterSteps_succ (tr : Train) (obs : List String) (d : DP) (T : Nat) :
    afterSteps tr obs d (T + 1)
      = viterbiStep tr (afterSteps tr obs d T) (obs.getD (T + 1) "") (T + 1) := by
  unfold afterSteps
  rw [List.range'_1_concat 1 T, List.foldl_append]
  show viterbiStep tr _ (obs.getD (1 + T) "") (1 + T) = _
  rw [Nat.add_comm 1 T]

/-- Relation between consecutive decoder snapshots: the new column is
the first-optimal candidate computed from the previous snapshot's last
column, and all earlier columns are unchanged. -/
theorem afterSteps_succ_col (tr : Train) (prev : DP) (w : String)
    (obs : List String) (T : Nat) (s : String) (hs : s ∈ states tr) :
    vv (afterSteps tr obs (initialise tr prev w) (T + 1)) s (T + 1)
        = (min_val (candList tr
            (fun p => vv (afterSteps tr obs (initialise tr prev w) T) p T)
            (obs.getD (T + 1) "") s)).1 ∧
    bb (afterSteps tr obs (initialise tr prev w) (T + 1)) s (T + 1)
        = (min_val (candList tr
            (fun p => vv (afterSteps tr obs (initialise tr prev w) T) p T)
            (obs.getD (T + 1) "") s)).2 ∧
    (∀ t', t' ≤ T →
      vv (afterSteps tr obs (initialise tr prev w) (T + 1)) s t'
          = vv (afterSteps tr obs (initialise tr prev w) T) s t' ∧
      bb (afterSteps tr obs (initialise tr prev w) (T + 1)) s t'
          = bb (afterSteps tr obs (initialise tr prev w) T) s t') := by
  set dpT := afterSteps tr obs (initialise tr prev w) T with hdpT
  have hInv : Inv tr w obs T dpT := inv_afterSteps tr prev w obs T
  set w' := obs.getD (T + 1) "" with hw'
  have hcol : ∀ p ∈ states tr,
      (dpT.viterbi p).getD (T + 1 - 1) 0 = vv dpT p T ∧
      T + 1 - 1 < (dpT.viterbi p).length := by
    intro p hp
    obtain ⟨hlen, _, _, _, _, _⟩ := hInv p hp
    exact ⟨rfl, by rw [hlen]; omega⟩
  obtain ⟨hin, _⟩ :=
    foldl_stepState_spec tr w' (T + 1) (fun p => vv dpT p T) (states tr)
      (nodup_unique_list _) (fun x hx => hx) dpT hcol
  have hsucc : afterSteps tr obs (initialise tr prev w) (T + 1)
      = (states tr).foldl (stepState tr w' (T + 1)) dpT := by
    rw [afterSteps_succ]
    rfl
  obtain ⟨hlen, hblen, _, _, _, _⟩ := hInv s hs
  obtain ⟨hvs, hbs⟩ := hin s hs
  refine ⟨?_, ?_, ?_⟩
  · rw [hsucc, vv, hvs, ← hlen, getD_append_len]
  · rw [hsucc, bb, hbs, ← hblen, getD_append_len]
  · intro t' ht'
    constructor
    · rw [hsucc, vv, hvs, getD_append_lt (by rw [hlen]; omega)]; rfl
    · rw [hsucc, bb, hbs, getD_append_lt (by rw [hblen]; omega)]; rfl

theorem get_backpointer_getD_eq_bb (dp : DP) (c : String) (t : Nat) :
    (get_backpointer_value dp c ((t : Int) + 1)).getD "" = bb dp c (t + 1) := by
  have h : ((t : Int) + 1) = ((t + 1 : Nat) : Int) := by push_cast; ring
  rw [get_backpointer_value, h, pyGet_natCast_getD]
  rfl

/-- Unfolding one step of the backpointer walk through the table
accessor. -/
theorem reconstructTags_succ (dp : DP) (cur : String) (t : Nat) :
    reconstructTags dp cur (t + 1)
      = reconstructTags dp (bb dp cur (t + 1)) t ++ [cur] := by
  show reconstructTags dp
      ((get_backpointer_value dp cur ((t : Int) + 1)).getD "") t ++ [cur] = _
  rw [get_backpointer_getD_eq_bb]

/-- Appending a new column does not change the backpointer walks that
stay within the old columns. -/
theorem reconstruct_stable (tr : Train) (prev : DP) (w : String)
    (obs : List String) (T : Nat) :
    ∀ t, t ≤ T → ∀ c ∈ states tr,
      reconstructTags (afterSteps tr obs (initialise tr prev w) (T + 1)) c t
        = reconstructTags (afterSteps tr obs (initialise tr prev w) T) c t := by
  intro t
  induction t with
  | zero => intro _ c _; rfl
  | succ t ih =>
      intro ht c hc
      have hInvT : Inv tr w obs T (afterSteps tr obs (initialise tr prev w) T) :=
        inv_afterSteps tr prev w obs T
      have hbb : bb (afterSteps tr obs (initialise tr prev w) (T + 1)) c (t + 1)
          = bb (afterSteps tr obs (initialise tr prev w) T) c (t + 1) :=
        ((afterSteps_succ_col tr prev w obs T c hc).2.2 (t + 1) ht).2
      have hrec := (hInvT c hc).2.2.2.2.1 (t + 1) (Nat.le_add_left 1 t) ht
      have hb_mem : bb (afterSteps tr obs (initialise tr prev w) T) c (t + 1)
          ∈ states tr := by
        rw [hrec.2]
        exact (min_val_candList_eq tr _ _ c (List.ne_nil_of_mem hc)).2
      rw [reconstructTags_succ, reconstructTags_succ, hbb]
      rw [ih (by omega) _ hb_mem]

/-- The backpointer walk from tag `s` at step `T` reconstructs a tag
sequence of length `T + 1`, drawn from `states`, ending in `s`, whose
probability is exactly the table entry `viterbi[s][T]`. -/
theorem ach_afterSteps (tr : Train) (prev : DP) (w : String)
    (obs : List String) :
    ∀ T, ∀ s ∈ states tr,
      (reconstructTags (afterSteps tr obs (initialise tr prev w) T) s T).length
          = T + 1 ∧
      (∀ x ∈ reconstructTags (afterSteps tr obs (initialise tr prev w) T) s T,
          x ∈ states tr) ∧
      (reconstructTags (afterSteps tr obs (initialise tr prev w) T) s T).getLast?
          = some s ∧
      prefProb tr w obs
          (reconstructTags (afterSteps tr obs (initialise tr prev w) T) s T)
        = vv (afterSteps tr obs (initialise tr prev w) T) s T := by
  intro T
  induction T with
  | zero =>
      intro s hs
      obtain ⟨_, _, hvv0, _, _, _⟩ := inv_afterSteps tr prev w obs 0 s hs
      refine ⟨rfl, ?_, rfl, ?_⟩
      · intro x hx
        have hx' : x = s := by simpa [reconstructTags] using hx
        exact hx' ▸ hs
      · rw [hvv0]
        show tprob tr "<s>" s * eprob tr s w * chainProb tr obs s 1 [] = _
        show tprob tr "<s>" s * eprob tr s w * 1 = _
        ring
  | succ T ih =>
      intro s hs
      have hSne : states tr ≠ [] := List.ne_nil_of_mem hs
      obtain ⟨hv1, hb1, _⟩ := afterSteps_succ_col tr prev w obs T s hs
      obtain ⟨hfeq, hmem⟩ := min_val_candList_eq tr
        (fun p => vv (afterSteps tr obs (initialise tr prev w) T) p T)
        (obs.getD (T + 1) "") s hSne
      rw [reconstructTags_succ, hb1, reconstruct_stable tr prev w obs T T le_rfl _ hmem]
      obtain ⟨ihlen, ihmem, ihlast, ihpref⟩ := ih _ hmem
      have hl_ne : reconstructTags (afterSteps tr obs (initialise tr prev w) T)
          (min_val (candList tr
            (fun p => vv (afterSteps tr obs (initialise tr prev w) T) p T)
            (obs.getD (T + 1) "") s)).2 T ≠ [] := by
        intro h
        rw [h] at ihlen
        exact absurd ihlen.symm (Nat.succ_ne_zero T)
      refine ⟨?_, ?_, ?_, ?_⟩
      · rw [List.length_append, ihlen]
        rfl
      · intro x hx
        rcases List.mem_append.mp hx with hx' | hx'
        · exact ihmem x hx'
        · have hx'' : x = s := by simpa using hx'
          exact hx'' ▸ hs
      · exact List.getLast?_concat _
      · rw [prefProb_snoc tr w obs _ hl_ne s]
        have hgld : (reconstructTags (afterSteps tr obs (initialise tr prev w) T)
            (min_val (candList tr
              (fun p => vv (afterSteps tr obs (initialise tr prev w) T) p T)
              (obs.getD (T + 1) "") s)).2 T).getLastD ""
            = (min_val (candList tr
              (fun p => vv (afterSteps tr obs (initialise tr prev w) T) p T)
              (obs.getD (T + 1) "") s)).2 := by
          rw [List.getLastD_eq_getLast?, ihlast]
          rfl
        rw [hgld, ihlen, ihpref, hv1, hfeq]

/-- No tag sequence of the right length over `states` that ends in `s`
beats the table entry `viterbi[s][T]`. -/
theorem opt_afterSteps (tr : Train) (prev : DP) (w : String)
    (obs : List String) :
    ∀ T, ∀ s ∈ states tr, ∀ ts : List String,
      ts.length = T + 1 → (∀ x ∈ ts, x ∈ states tr) → ts.getLast? = some s →
      prefProb tr w obs ts
        ≤ vv (afterSteps tr obs (initialise tr prev w) T) s T := by
  intro T
  induction T with
  | zero =>
      intro s hs ts hlen hmem hlast
      obtain ⟨a, rfl⟩ := List.length_eq_one.mp hlen
      have ha : a = s := by simpa using hlast
      subst ha
      obtain ⟨_, _, hvv0, _, _, _⟩ := inv_afterSteps tr prev w obs 0 a hs
      rw [hvv0]
      show tprob tr "<s>" a * eprob tr a w * chainProb tr obs a 1 [] ≤ _
      show tprob tr "<s>" a * eprob tr a w * 1 ≤ _
      rw [mul_one]
  | succ T ih =>
      intro s hs ts hlen hmem hlast
      have hts_ne : ts ≠ [] := by
        intro h
        rw [h] at hlen
        exact absurd hlen.symm (Nat.succ_ne_zero (T + 1))
      have hsplit : ts = ts.dropLast ++ [ts.getLast hts_ne] :=
        (List.dropLast_append_getLast hts_ne).symm
      have hlast_eq : ts.getLast hts_ne = s := by
        have h2 := List.getLast?_eq_getLast ts hts_ne
        rw [hlast] at h2
        exact (Option.some.inj h2).symm
      have hsplit' : ts = ts.dropLast ++ [s] := by rw [← hlast_eq]; exact hsplit
      have hlen_l : ts.dropLast.length = T + 1 := by
        have h3 := congrArg List.length hsplit'
        rw [List.length_append, List.length_singleton] at h3
        omega
      have hl_ne : ts.dropLast ≠ [] := by
        intro h
        rw [h] at hlen_l
        exact absurd hlen_l.symm (Nat.succ_ne_zero T)
      obtain ⟨q, hq⟩ : ∃ q, ts.dropLast.getLast? = some q := by
        cases hgl : ts.dropLast.getLast? with
        | none => exact absurd (List.getLast?_eq_none_iff.mp hgl) hl_ne
        | some q => exact ⟨q, rfl⟩
      have hq_mem_l : q ∈ ts.dropLast := List.mem_of_getLast?_eq_some hq
      have hq_mem : q ∈ states tr :=
        hmem q (by rw [hsplit']; exact List.mem_append_left _ hq_mem_l)
      have hihl : ∀ x ∈ ts.dropLast, x ∈ states tr := fun x hx =>
        hmem x (by rw [hsplit']; exact List.mem_append_left _ hx)
      have hIH := ih q hq_mem ts.dropLast hlen_l hihl hq
      obtain ⟨hv1, _, _⟩ := afterSteps_succ_col tr prev w obs T s hs
      rw [hsplit', prefProb_snoc tr w obs _ hl_ne s]
      have hgld : ts.dropLast.getLastD "" = q := by
        rw [List.getLastD_eq_getLast?, hq]
        rfl
      rw [hgld, hlen_l, hv1]
      have hcand_mem :
          ((fun p => (vv (afterSteps tr obs (initialise tr prev w) T) p T
              * tprob tr p s * eprob tr s (obs.getD (T + 1) ""), p)) q)
            ∈ candList tr
              (fun p => vv (afterSteps tr obs (initialise tr prev w) T) p T)
              (obs.getD (T + 1) "") s :=
        List.mem_map_of_mem _ hq_mem
      have hle_min := le_min_val _ hcand_mem
      have h1 : prefProb tr w obs ts.dropLast * tprob tr q s
          ≤ vv (afterSteps tr obs (initialise tr prev w) T) q T * tprob tr q s :=
        mul_le_mul_of_nonneg_right hIH (le_of_lt (tprob_pos tr q s))
      have h2 : prefProb tr w obs ts.dropLast * tprob tr q s
              * eprob tr s (obs.getD (T + 1) "")
          ≤ vv (afterSteps tr obs (initialise tr prev w) T) q T * tprob tr q s
              * eprob tr s (obs.getD (T + 1) "") :=
        mul_le_mul_of_nonneg_right h1 (le_of_lt (eprob_pos tr s _))
      exact le_trans h2 hle_min

theorem chainProb_pos (tr : Train) (obs : List String) :
    ∀ (l : List String) (prev : String) (i : Nat),
      0 < chainProb tr obs prev i l := by
  intro l
  induction l with
  | nil => intro prev i; exact zero_lt_one
  | cons s rest ih =>
      intro prev i
      exact mul_pos (mul_pos (tprob_pos tr prev s) (eprob_pos tr s _)) (ih s (i + 1))

theorem prefProb_pos (tr : Train) (w : String) (obs : List String)
    (ts : List String) : 0 < prefProb tr w obs ts := by
  match ts with
  | [] => exact zero_lt_one
  | t0 :: rest =>
      exact mul_pos (mul_pos (tprob_pos tr "<s>" t0) (eprob_pos tr t0 w))
        (chainProb_pos tr obs rest t0 1)

theorem fullSeqProb_pos (tr : Train) (w : String) (obs : List String)
    (ts : List String) : 0 < fullSeqProb tr w obs ts :=
  mul_pos (prefProb_pos tr w obs ts) (tprob_pos tr _ "</s>")

/-- The core result about `tag`, in exact probability space: on a
non-empty sentence the decoder returns one tag per word, all drawn from
`states`, and no other tag sequence of the same length over `states` has
a larger path probability (equivalently, a smaller path cost). -/
theorem tag_spec (tr : Train) (prev : DP) (w : String) (obs : List String)
    (hS : states tr ≠ []) (hobs : obs ≠ []) :
    (tag tr (initialise tr prev w) obs).length = obs.length ∧
    (∀ x ∈ tag tr (initialise tr prev w) obs, x ∈ states tr) ∧
    ∀ ts : List String, ts.length = obs.length → (∀ x ∈ ts, x ∈ states tr) →
      fullSeqProb tr w obs ts
        ≤ fullSeqProb tr w obs (tag tr (initialise tr prev w) obs) := by
  have hn : 1 ≤ obs.length := List.length_pos.mpr hobs
  have hInv := inv_afterSteps tr prev w obs (obs.length - 1)
  -- rewrite the termination candidate list through the accessor
  have hterm : ∀ p ∈ states tr,
      (tprob tr p "</s>"
          * (get_viterbi_value (afterSteps tr obs (initialise tr prev w)
              (obs.length - 1)) p ((obs.length : Int) - 1)).getD 0, p)
        = (tprob tr p "</s>"
            * vv (afterSteps tr obs (initialise tr prev w) (obs.length - 1)) p
                (obs.length - 1), p) := by
    intro p hp
    have hc : ((obs.length : Int) - 1) = ((obs.length - 1 : Nat) : Int) := by
      omega
    rw [get_viterbi_value, hc, pyGet_natCast_getD]
    rfl
  have hLeq : (states tr).map
        (fun p => (tprob tr p "</s>"
          * (get_viterbi_value (afterSteps tr obs (initialise tr prev w)
              (obs.length - 1)) p ((obs.length : Int) - 1)).getD 0, p))
      = (states tr).map
        (fun p => (tprob tr p "</s>"
          * vv (afterSteps tr obs (initialise tr prev w) (obs.length - 1)) p
              (obs.length - 1), p)) :=
    List.map_congr_left hterm
  have hbl : bestLastTag tr
        (afterSteps tr obs (initialise tr prev w) (obs.length - 1)) obs.length
      = (min_val ((states tr).map
          (fun p => (tprob tr p "</s>"
            * vv (afterSteps tr obs (initialise tr prev w) (obs.length - 1)) p
                (obs.length - 1), p)))).2 := by
    rw [bestLastTag, hLeq]
  have hLne : (states tr).map
        (fun p => (tprob tr p "</s>"
          * vv (afterSteps tr obs (initialise tr prev w) (obs.length - 1)) p
              (obs.length - 1), p)) ≠ [] :=
    fun h => hS (List.map_eq_nil_iff.mp h)
  obtain ⟨q, hq_mem, hq_eq⟩ := List.mem_map.mp (min_val_mem hLne)
  have htag : tag tr (initialise tr prev w) obs
      = reconstructTags (afterSteps tr obs (initialise tr prev w)
          (obs.length - 1))
          (bestLastTag tr (afterSteps tr obs (initialise tr prev w)
            (obs.length - 1)) obs.length)
          (obs.length - 1) := rfl
  have hblq : bestLastTag tr
        (afterSteps tr obs (initialise tr prev w) (obs.length - 1)) obs.length
      = q := by
    rw [hbl, ← hq_eq]
  obtain ⟨ihlen, ihmem, ihlast, ihpref⟩ :=
    ach_afterSteps tr prev w obs (obs.length - 1) q hq_mem
  have hfull_tag : fullSeqProb tr w obs (tag tr (initialise tr prev w) obs)
      = (min_val ((states tr).map
          (fun p => (tprob tr p "</s>"
            * vv (afterSteps tr obs (initialise tr prev w) (obs.length - 1)) p
                (obs.length - 1), p)))).1 := by
    rw [htag, hblq, fullSeqProb]
    have hgld : (reconstructTags (afterSteps tr obs (initialise tr prev w)
        (obs.length - 1)) q (obs.length - 1)).getLastD "" = q := by
      rw [List.getLastD_eq_getLast?, ihlast]
      rfl
    rw [hgld, ihpref, ← hq_eq]
    show vv _ q _ * tprob tr q "</s>" = tprob tr q "</s>" * vv _ q _
    ring
  refine ⟨?_, ?_, ?_⟩
  · rw [htag, hblq, ihlen]
    omega
  · intro x hx
    rw [htag, hblq] at hx
    exact ihmem x hx
  · intro ts hlen hmem
    have hts_ne : ts ≠ [] := by
      intro h
      rw [h] at hlen
      simp only [List.length_nil] at hlen
      omega
    obtain ⟨q', hq'⟩ : ∃ q', ts.getLast? = some q' := by
      cases hgl : ts.getLast? with
      | none => exact absurd (List.getLast?_eq_none_iff.mp hgl) hts_ne
      | some q' => exact ⟨q', rfl⟩
    have hq'_mem : q' ∈ states tr :=
      hmem q' (List.mem_of_getLast?_eq_some hq')
    have hopt := opt_afterSteps tr prev w obs (obs.length - 1) q' hq'_mem ts
      (by omega) hmem hq'
    rw [hfull_tag]
    have hgld : ts.getLastD "" = q' := by
      rw [List.getLastD_eq_getLast?, hq']
      rfl
    have hstep1 : fullSeqProb tr w obs ts
        ≤ vv (afterSteps tr obs (initialise tr prev w) (obs.length - 1)) q'
            (obs.length - 1) * tprob tr q' "</s>" := by
      rw [fullSeqProb, hgld]
      exact mul_le_mul_of_nonneg_right hopt (le_of_lt (tprob_pos tr q' "</s>"))
    have hcand : ((fun p => (tprob tr p "</s>"
          * vv (afterSteps tr obs (initialise tr prev w) (obs.length - 1)) p
              (obs.length - 1), p)) q')
        ∈ (states tr).map
          (fun p => (tprob tr p "</s>"
            * vv (afterSteps tr obs (initialise tr prev w) (obs.length - 1)) p
                (obs.length - 1), p)) :=
      List.mem_map_of_mem _ hq'_mem
    have hle := le_min_val _ hcand
    refine le_trans hstep1 (le_trans (le_of_eq ?_) hle)
    show _ = tprob tr q' "</s>" * vv _ q' _
    ring

/-! ### Bridging exact probabilities to base-2 log costs -/

/-- The cost (negative base-2 log probability) of the transitions and
emissions contributed by the tags of positions `i, i+1, ...`. -/
noncomputable def costChain (tr : Train) (obs : List String) :
    String → Nat → List String → ℝ
  | _, _, [] => 0
  | prev, i, s :: rest =>
      -Real.logb 2 ((tprob tr prev s : ℚ) : ℝ)
        + -Real.logb 2 ((eprob tr s (obs.getD i "") : ℚ) : ℝ)
        + costChain tr obs s (i + 1) rest

/-- The total path cost of a tag sequence for sentence `obs`, exactly as
the specification words it: `-log2 P(first tag | <s>)`, plus for each
position the emission cost of that word given its tag, plus each
adjacent transition cost, plus `-log2 P(</s> | last tag)`. -/
noncomputable def pathCost (tr : Train) (obs ts : List String) : ℝ :=
  (match ts with
    | [] => 0
    | t0 :: rest =>
        -Real.logb 2 ((tprob tr "<s>" t0 : ℚ) : ℝ)
          + -Real.logb 2 ((eprob tr t0 (obs.getD 0 "") : ℚ) : ℝ)
          + costChain tr obs t0 1 rest)
    + -Real.logb 2 ((tprob tr (ts.getLastD "") "</s>" : ℚ) : ℝ)

theorem costChain_eq (tr : Train) (obs : List String) :
    ∀ (l : List String) (prev : String) (i : Nat),
      costChain tr obs prev i l
        = -Real.logb 2 ((chainProb tr obs prev i l : ℚ) : ℝ) := by
  intro l
  induction l with
  | nil =>
      intro prev i
      show (0 : ℝ) = -Real.logb 2 (((1 : ℚ) : ℝ))
      rw [Rat.cast_one, Real.logb_one, neg_zero]
  | cons s rest ih =>
      intro prev i
      show -Real.logb 2 ((tprob tr prev s : ℚ) : ℝ)
          + -Real.logb 2 ((eprob tr s (obs.getD i "") : ℚ) : ℝ)
          + costChain tr obs s (i + 1) rest = _
      rw [ih s (i + 1)]
      have ht : ((tprob tr prev s : ℚ) : ℝ) ≠ 0 := by
        exact_mod_cast ne_of_gt (tprob_pos tr prev s)
      have he : ((eprob tr s (obs.getD i "") : ℚ) : ℝ) ≠ 0 := by
        exact_mod_cast ne_of_gt (eprob_pos tr s _)
      have hc : ((chainProb tr obs s (i + 1) rest : ℚ) : ℝ) ≠ 0 := by
        exact_mod_cast ne_of_gt (chainProb_pos tr obs rest s (i + 1))
      have hcast : ((tprob tr prev s * eprob tr s (obs.getD i "")
            * chainProb tr obs s (i + 1) rest : ℚ) : ℝ)
          = ((tprob tr prev s : ℚ) : ℝ)
            * ((eprob tr s (obs.getD i "") : ℚ) : ℝ)
            * ((chainProb tr obs s (i + 1) rest : ℚ) : ℝ) := by
        push_cast
        ring
      show _ = -Real.logb 2 ((tprob tr prev s * eprob tr s (obs.getD i "")
          * chainProb tr obs s (i + 1) rest : ℚ) : ℝ)
      rw [hcast, Real.logb_mul (mul_ne_zero ht he) hc, Real.logb_mul ht he]
      ring

/-- The path cost of a non-empty tag sequence is the negative base-2 log
of its exact path probability, taking the first emission from the first
word of the sentence. -/
theorem pathCost_eq (tr : Train) (obs : List String) (ts : List String)
    (hts : ts ≠ []) :
    pathCost tr obs ts
      = -Real.logb 2 ((fullSeqProb tr (obs.getD 0 "") obs ts : ℚ) : ℝ) := by
  match ts, hts with
  | t0 :: rest, _ =>
      show -Real.logb 2 ((tprob tr "<s>" t0 : ℚ) : ℝ)
          + -Real.logb 2 ((eprob tr t0 (obs.getD 0 "") : ℚ) : ℝ)
          + costChain tr obs t0 1 rest
          + -Real.logb 2 ((tprob tr ((t0 :: rest).getLastD "") "</s>" : ℚ) : ℝ)
          = _
      rw [costChain_eq tr obs rest t0 1]
      have ht : ((tprob tr "<s>" t0 : ℚ) : ℝ) ≠ 0 := by
        exact_mod_cast ne_of_gt (tprob_pos tr "<s>" t0)
      have he : ((eprob tr t0 (obs.getD 0 "") : ℚ) : ℝ) ≠ 0 := by
        exact_mod_cast ne_of_gt (eprob_pos tr t0 _)
      have hc : ((chainProb tr obs t0 1 rest : ℚ) : ℝ) ≠ 0 := by
        exact_mod_cast ne_of_gt (chainProb_pos tr obs rest t0 1)
      have hf : ((tprob tr ((t0 :: rest).getLastD "") "</s>" : ℚ) : ℝ) ≠ 0 := by
        exact_mod_cast ne_of_gt (tprob_pos tr _ "</s>")
      have hcast : ((fullSeqProb tr (obs.getD 0 "") obs (t0 :: rest) : ℚ) : ℝ)
          = ((tprob tr "<s>" t0 : ℚ) : ℝ)
            * ((eprob tr t0 (obs.getD 0 "") : ℚ) : ℝ)
            * ((chainProb tr obs t0 1 rest : ℚ) : ℝ)
            * ((tprob tr ((t0 :: rest).getLastD "") "</s>" : ℚ) : ℝ) := by
        show ((prefProb tr (obs.getD 0 "") obs (t0 :: rest)
            * tprob tr ((t0 :: rest).getLastD "") "</s>" : ℚ) : ℝ) = _
        show ((tprob tr "<s>" t0 * eprob tr t0 (obs.getD 0 "")
            * chainProb tr obs t0 1 rest
            * tprob tr ((t0 :: rest).getLastD "") "</s>" : ℚ) : ℝ) = _
        push_cast
        ring
      rw [hcast, Real.logb_mul (mul_ne_zero (mul_ne_zero ht he) hc) hf,
        Real.logb_mul (mul_ne_zero ht he) hc, Real.logb_mul ht he]
      ring

/-! ### Concrete data used to instantiate the theorems -/

/-- The synthetic training corpus of the specification: tags
`{NOUN, VERB}`, three two-word sentences. -/
def exampleTrain : Train :=
  [[("dog", "NOUN"), ("runs", "VERB")],
   [("cats", "NOUN"), ("sleep", "VERB")],
   [("dogs", "NOUN"), ("run", "VERB")]]

/-- An arbitrary prior decoder state (used to instantiate the ignored
`initialise` argument). -/
def emptyDP : DP := ⟨fun _ => [], fun _ => []⟩

/-- A one-sentence, one-word training corpus. -/
def oneTagTrain : Train := [[("a", "A")]]

/-- The selected last tag always belongs to `states`. -/
theorem bestLastTag_mem (tr : Train) (dp : DP) (n : Nat)
    (hS : states tr ≠ []) : bestLastTag tr dp n ∈ states tr := by
  unfold bestLastTag
  have hne : (states tr).map
      (fun p => (tprob tr p "</s>"
        * (get_viterbi_value dp p ((n : Int) - 1)).getD 0, p)) ≠ [] :=
    fun h => hS (List.map_eq_nil_iff.mp h)
  obtain ⟨q, hq, hqe⟩ := List.mem_map.mp (min_val_mem hne)
  rw [← hqe]
  exact hq

theorem pyGet_mem {α : Type} {l : List α} {i : Int} {x : α}
    (h : pyGet l i = some x) : x ∈ l := by
  unfold pyGet at h
  split at h
  · exact List.get?_mem h
  · split at h
    · exact List.get?_mem h
    · cases h

/-- Every value ever stored in a viterbi row during a decode lies in
`(0, 1]`: its cost is well defined and non-negative. -/
theorem viterbi_entries_bounds (tr : Train) (prev : DP) (w : String)
    (obs : List String) (T : Nat) (st : String) (hst : st ∈ states tr) :
    ∀ q ∈ (afterSteps tr obs (initialise tr prev w) T).viterbi st,
      0 < q ∧ q ≤ 1 := by
  intro q hq
  obtain ⟨hlen, _, _, _, _, hpos⟩ := inv_afterSteps tr prev w obs T st hst
  obtain ⟨i, hi⟩ := List.mem_iff_get?.mp hq
  obtain ⟨hilt, _⟩ := List.get?_eq_some.mp hi
  have hvq : vv (afterSteps tr obs (initialise tr prev w) T) st i = q := by
    rw [vv, List.getD_eq_getElem?_getD, ← List.get?_eq_getElem?, hi]
    rfl
  have hb := hpos i (by omega)
  rw [hvq] at hb
  exact hb

/-! ### The claims -/

/-- C1: Viterbi optimality — after training, for every non-empty
sentence whose first word was passed to `initialise`, the tag sequence
returned by `tag` has total path cost (`-log2 P(first tag | <s>)` plus
per-position emission costs, plus adjacent transition costs, plus
`-log2 P(</s> | last tag)`) less than or equal to the total path cost of
every other tag sequence of the same length drawn from `states`. -/
theorem c1_viterbi_optimality (tr : Train) (prev : DP) (obs : List String)
    (hS : states tr ≠ []) (hobs : obs ≠ []) (other : List String)
    (hlen : other.length = obs.length) (hmem : ∀ x ∈ other, x ∈ states tr) :
    pathCost tr obs (tag tr (initialise tr prev (obs.headD "")) obs)
      ≤ pathCost tr obs other := by
  have hhead : obs.headD "" = obs.getD 0 "" := by
    cases obs with
    | nil => rfl
    | cons a l => rfl
  rw [hhead]
  obtain ⟨hlen_t, _, hopt⟩ := tag_spec tr prev (obs.getD 0 "") obs hS hobs
  have h1 := hopt other hlen hmem
  have hn : 1 ≤ obs.length := List.length_pos.mpr hobs
  have htag_ne : tag tr (initialise tr prev (obs.getD 0 "")) obs ≠ [] := by
    intro h
    rw [h] at hlen_t
    simp only [List.length_nil] at hlen_t
    omega
  have hother_ne : other ≠ [] := by
    intro h
    rw [h] at hlen
    simp only [List.length_nil] at hlen
    omega
  rw [pathCost_eq tr obs _ htag_ne, pathCost_eq tr obs other hother_ne]
  have hpos : (0 : ℝ) < ((fullSeqProb tr (obs.getD 0 "") obs other : ℚ) : ℝ) := by
    exact_mod_cast fullSeqProb_pos tr (obs.getD 0 "") obs other
  have hle : ((fullSeqProb tr (obs.getD 0 "") obs other : ℚ) : ℝ)
      ≤ ((fullSeqProb tr (obs.getD 0 "") obs
          (tag tr (initialise tr prev (obs.getD 0 "")) obs) : ℚ) : ℝ) := by
    exact_mod_cast h1
  have := Real.logb_le_logb_of_le one_lt_two hpos hle
  linarith

theorem c1_viterbi_optimality_witness :
    (["VERB", "VERB"] : List String).length
        = (["dog", "runs"] : List String).length ∧
    pathCost exampleTrain ["dog", "runs"]
        (tag exampleTrain
          (initialise exampleTrain emptyDP ((["dog", "runs"] : List String).headD ""))
          ["dog", "runs"])
      ≤ pathCost exampleTrain ["dog", "runs"] ["VERB", "VERB"] :=
  ⟨by decide,
   c1_viterbi_optimality exampleTrain emptyDP ["dog", "runs"] (by decide)
     (by decide) ["VERB", "VERB"] (by decide) (by decide)⟩

/-- C2: the smoothed estimator assigns `(c + 0.01) / (N + (B + 1) * 0.01)`
to a value seen `c` times under a condition with total count `N` and `B`
distinct observed values, and every value — seen or unseen — receives a
strictly positive probability, so its base-2 log is finite (its cast is
a non-zero real). -/
theorem c2_lidstone_estimator (data : List (String × String)) (c v : String) :
    lidstone_prob data c v
        = ((data.count (c, v) : ℚ) + 1/100)
          / ((condN data c : ℚ) + ((condB data c : ℚ) + 1) * (1/100)) ∧
    0 < lidstone_prob data c v ∧
    ((lidstone_prob data c v : ℚ) : ℝ) ≠ 0 :=
  ⟨rfl, lidstone_pos data c v,
   by exact_mod_cast ne_of_gt (lidstone_pos data c v)⟩

/-- C4: after `initialise(w)`, for every tag `s` in `states` — and
regardless of the previous decoding tables `prev` — the viterbi row of
`s` is the single entry whose cost is
`-log2 P(s | <s>) - log2 P(w | s)` and the backpointer row of `s` is
`["<s>"]`; nothing from a previously decoded sentence remains. -/
theorem c4_initialise_reset (tr : Train) (prev : DP) (w : String) (s : String)
    (hs : s ∈ states tr) :
    (initialise tr prev w).viterbi s = [tprob tr "<s>" s * eprob tr s w] ∧
    (initialise tr prev w).backpointer s = ["<s>"] ∧
    -Real.logb 2 ((tprob tr "<s>" s * eprob tr s w : ℚ) : ℝ)
      = -Real.logb 2 ((tprob tr "<s>" s : ℚ) : ℝ)
        - Real.logb 2 ((eprob tr s w : ℚ) : ℝ) := by
  refine ⟨by simp [initialise, hs], by simp [initialise, hs], ?_⟩
  have ht : ((tprob tr "<s>" s : ℚ) : ℝ) ≠ 0 := by
    exact_mod_cast ne_of_gt (tprob_pos tr "<s>" s)
  have he : ((eprob tr s w : ℚ) : ℝ) ≠ 0 := by
    exact_mod_cast ne_of_gt (eprob_pos tr s w)
  have hcast : ((tprob tr "<s>" s * eprob tr s w : ℚ) : ℝ)
      = ((tprob tr "<s>" s : ℚ) : ℝ) * ((eprob tr s w : ℚ) : ℝ) := by
    push_cast
    ring
  rw [hcast, Real.logb_mul ht he]
  ring

theorem c4_initialise_reset_witness :
    (initialise exampleTrain emptyDP "dog").viterbi "NOUN"
        = [tprob exampleTrain "<s>" "NOUN" * eprob exampleTrain "NOUN" "dog"] ∧
    (initialise exampleTrain emptyDP "dog").backpointer "NOUN" = ["<s>"] ∧
    -Real.logb 2
        ((tprob exampleTrain "<s>" "NOUN" * eprob exampleTrain "NOUN" "dog" : ℚ) : ℝ)
      = -Real.logb 2 ((tprob exampleTrain "<s>" "NOUN" : ℚ) : ℝ)
        - Real.logb 2 ((eprob exampleTrain "NOUN" "dog" : ℚ) : ℝ) :=
  c4_initialise_reset exampleTrain emptyDP "dog" "NOUN" (by decide)

/-- C6: on a trained model, initialising with the first word of a
non-empty sentence and then tagging it returns exactly one tag per word,
each drawn from `states`. -/
theorem c6_output_shape (tr : Train) (prev : DP) (obs : List String)
    (hS : states tr ≠ []) (hobs : obs ≠ []) :
    (tag tr (initialise tr prev (obs.headD "")) obs).length = obs.length ∧
    ∀ x ∈ tag tr (initialise tr prev (obs.headD "")) obs, x ∈ states tr := by
  obtain ⟨h1, h2, _⟩ := tag_spec tr prev (obs.headD "") obs hS hobs
  exact ⟨h1, h2⟩

theorem c6_output_shape_witness :
    (tag exampleTrain
        (initialise exampleTrain emptyDP
          ((["dog", "zzzunseen", "runs"] : List String).headD ""))
        ["dog", "zzzunseen", "runs"]).length
      = (["dog", "zzzunseen", "runs"] : List String).length :=
  (c6_output_shape exampleTrain emptyDP ["dog", "zzzunseen", "runs"]
    (by decide) (by decide)).1

/-- C7: the emission lookup fails (no distribution exists) exactly for a
tag never observed in training; for observed tags it returns a value. -/
theorem c7_unseen_tag_fails (tr : Train) (state word : String) :
    elprob_lookup tr state word = none
      ↔ state ∉ (emissionData tr).map Prod.fst := by
  unfold elprob_lookup
  by_cases h : state ∈ (emissionData tr).map Prod.fst
  · simp [h]
  · simp [h]

/-- C10: `tag` never reads the first observation: with the same trained
model and the same `initialise` call, two non-empty observation
sequences that differ only at position 0 produce identical tag
sequences. -/
theorem c10_tag_ignores_first_word (tr : Train) (prev : DP) (w : String)
    (obs1 obs2 : List String) (hne : obs1 ≠ [])
    (hlen : obs1.length = obs2.length) (htail : obs1.tail = obs2.tail) :
    tag tr (initialise tr prev w) obs1 = tag tr (initialise tr prev w) obs2 := by
  have hgetD : ∀ t, 1 ≤ t → obs1.getD t "" = obs2.getD t "" := by
    intro t ht
    cases obs1 with
    | nil => exact absurd rfl hne
    | cons a as =>
        cases obs2 with
        | nil => simp at hlen
        | cons b bs =>
            have htail' : as = bs := by simpa using htail
            obtain ⟨t', rfl⟩ : ∃ t', t = t' + 1 := ⟨t - 1, by omega⟩
            show as.getD t' "" = bs.getD t' ""
            rw [htail']
  have hAS : ∀ T (d : DP), afterSteps tr obs1 d T = afterSteps tr obs2 d T := by
    intro T
    induction T with
    | zero => intro d; rw [afterSteps_zero, afterSteps_zero]
    | succ T ih =>
        intro d
        rw [afterSteps_succ, afterSteps_succ, ih, hgetD (T + 1) (by omega)]
  have h1 : tag tr (initialise tr prev w) obs1
      = reconstructTags (afterSteps tr obs1 (initialise tr prev w)
          (obs1.length - 1))
          (bestLastTag tr (afterSteps tr obs1 (initialise tr prev w)
            (obs1.length - 1)) obs1.length)
          (obs1.length - 1) := rfl
  have h2 : tag tr (initialise tr prev w) obs2
      = reconstructTags (afterSteps tr obs2 (initialise tr prev w)
          (obs2.length - 1))
          (bestLastTag tr (afterSteps tr obs2 (initialise tr prev w)
            (obs2.length - 1)) obs2.length)
          (obs2.length - 1) := rfl
  rw [h1, h2, hlen, hAS]

theorem c10_tag_ignores_first_word_witness :
    (["zzz", "runs"] : List String).length
        = (["dog", "runs"] : List String).length ∧
    tag exampleTrain (initialise exampleTrain emptyDP "dog") ["zzz", "runs"]
      = tag exampleTrain (initialise exampleTrain emptyDP "dog") ["dog", "runs"] :=
  ⟨by decide,
   c10_tag_ignores_first_word exampleTrain emptyDP "dog" ["zzz", "runs"]
     ["dog", "runs"] (by decide) (by decide) (by decide)⟩

/-- C8 counterexample: decoding the empty sentence on a trained and
initialised model does not fail and does not return an empty result —
the termination step's index `-1` reads the initialisation column
(Python negative indexing) and `tag` returns a one-element tag list. -/
theorem c8_counterexample :
    tag oneTagTrain (initialise oneTagTrain emptyDP "a") [] = ["A"] := by
  decide

/-- C8 amended: on a trained and initialised model, decoding the empty
sentence succeeds and returns the one-element list holding the tag
selected by the termination step over the initialisation column (read
through Python's `-1` index); no failure occurs. -/
theorem c8_empty_sentence_one_tag (tr : Train) (prev : DP) (w : String)
    (hS : states tr ≠ []) :
    tag tr (initialise tr prev w) []
        = [bestLastTag tr (initialise tr prev w) 0] ∧
    (tag tr (initialise tr prev w) []).length = 1 ∧
    bestLastTag tr (initialise tr prev w) 0 ∈ states tr := by
  refine ⟨rfl, rfl, bestLastTag_mem tr (initialise tr prev w) 0 hS⟩

theorem c8_empty_sentence_one_tag_witness :
    states oneTagTrain ≠ [] ∧
    (tag oneTagTrain (initialise oneTagTrain emptyDP "a") []
        = [bestLastTag oneTagTrain (initialise oneTagTrain emptyDP "a") 0] ∧
      (tag oneTagTrain (initialise oneTagTrain emptyDP "a") []).length = 1 ∧
      bestLastTag oneTagTrain (initialise oneTagTrain emptyDP "a") 0
        ∈ states oneTagTrain) :=
  ⟨by decide, c8_empty_sentence_one_tag oneTagTrain emptyDP "a" (by decide)⟩

/-- C9: every emission and transition probability lies in `(0, 1]`,
hence the values returned by `elprob`/`tlprob` (their base-2 logs) are
`≤ 0`; every value stored in the viterbi table during any decode — and
hence every value returned by `get_viterbi_value` — has cost `≥ 0`, with
cost `0` exactly when the underlying probability is `1`. -/
theorem c9_sign_invariants (tr : Train) (s w a b : String) (prev : DP)
    (w0 : String) (obs : List String) (T : Nat) (st : String) (i : Int)
    (q : ℚ) (hst : st ∈ states tr)
    (hq : get_viterbi_value (afterSteps tr obs (initialise tr prev w0) T) st i
        = some q) :
    (0 < eprob tr s w ∧ eprob tr s w ≤ 1) ∧
    (0 < tprob tr a b ∧ tprob tr a b ≤ 1) ∧
    Real.logb 2 ((eprob tr s w : ℚ) : ℝ) ≤ 0 ∧
    Real.logb 2 ((tprob tr a b : ℚ) : ℝ) ≤ 0 ∧
    0 ≤ -Real.logb 2 ((q : ℚ) : ℝ) ∧
    (-Real.logb 2 ((q : ℚ) : ℝ) = 0 ↔ q = 1) ∧
    (Real.logb 2 ((eprob tr s w : ℚ) : ℝ) = 0 ↔ eprob tr s w = 1) := by
  obtain ⟨hq0, hq1⟩ :=
    viterbi_entries_bounds tr prev w0 obs T st hst q (pyGet_mem hq)
  have hq0' : (0 : ℝ) < ((q : ℚ) : ℝ) := by exact_mod_cast hq0
  have hq1' : ((q : ℚ) : ℝ) ≤ 1 := by exact_mod_cast hq1
  have he0 : (0 : ℝ) < ((eprob tr s w : ℚ) : ℝ) := by
    exact_mod_cast eprob_pos tr s w
  have he1 : ((eprob tr s w : ℚ) : ℝ) ≤ 1 := by
    exact_mod_cast eprob_le_one tr s w
  have ht0 : (0 : ℝ) < ((tprob tr a b : ℚ) : ℝ) := by
    exact_mod_cast tprob_pos tr a b
  have ht1 : ((tprob tr a b : ℚ) : ℝ) ≤ 1 := by
    exact_mod_cast tprob_le_one tr a b
  have hlogb_one : ∀ x : ℝ, 0 < x → (Real.logb 2 x = 0 ↔ x = 1) := by
    intro x hx
    constructor
    · intro h
      rcases Real.logb_eq_zero.mp h with h' | h' | h' | h' | h' | h'
      · norm_num at h'
      · norm_num at h'
      · norm_num at h'
      · exact absurd h' (ne_of_gt hx)
      · exact h'
      · exact absurd h' (by linarith)
    · intro h
      rw [h, Real.logb_one]
  refine ⟨⟨eprob_pos tr s w, eprob_le_one tr s w⟩,
    ⟨tprob_pos tr a b, tprob_le_one tr a b⟩,
    Real.logb_nonpos one_lt_two (le_of_lt he0) he1,
    Real.logb_nonpos one_lt_two (le_of_lt ht0) ht1, ?_, ?_, ?_⟩
  · have := Real.logb_nonpos one_lt_two (le_of_lt hq0') hq1'
    linarith
  · rw [neg_eq_zero, hlogb_one _ hq0']
    exact_mod_cast Iff.rfl
  · rw [hlogb_one _ he0]
    exact_mod_cast Iff.rfl

theorem c9_sign_invariants_witness :
    (0 < eprob oneTagTrain "A" "a" ∧ eprob oneTagTrain "A" "a" ≤ 1) ∧
    (0 < tprob oneTagTrain "A" "</s>" ∧ tprob oneTagTrain "A" "</s>" ≤ 1) ∧
    Real.logb 2 ((eprob oneTagTrain "A" "a" : ℚ) : ℝ) ≤ 0 ∧
    Real.logb 2 ((tprob oneTagTrain "A" "</s>" : ℚ) : ℝ) ≤ 0 ∧
    0 ≤ -Real.logb 2
        ((tprob oneTagTrain "<s>" "A" * eprob oneTagTrain "A" "a" : ℚ) : ℝ) ∧
    (-Real.logb 2
        ((tprob oneTagTrain "<s>" "A" * eprob oneTagTrain "A" "a" : ℚ) : ℝ) = 0
      ↔ tprob oneTagTrain "<s>" "A" * eprob oneTagTrain "A" "a" = 1) ∧
    (Real.logb 2 ((eprob oneTagTrain "A" "a" : ℚ) : ℝ) = 0
      ↔ eprob oneTagTrain "A" "a" = 1) :=
  c9_sign_invariants oneTagTrain "A" "a" "A" "</s>" emptyDP "a" ["a"] 0 "A" 0
    (tprob oneTagTrain "<s>" "A" * eprob oneTagTrain "A" "a")
    (by decide) rfl

/-- The candidate cost of the advance recurrence, as the specification
words it: `viterbi[p][t-1] - log2 P(s | p) - log2 P(observations[t] | s)`,
read off the decoder state `dp`. -/
noncomputable def candCost (tr : Train) (dp : DP) (obs : List String)
    (t : Nat) (s p : String) : ℝ :=
  -Real.logb 2 ((vv dp p (t - 1) : ℚ) : ℝ)
    - Real.logb 2 ((tprob tr p s : ℚ) : ℝ)
    - Real.logb 2 ((eprob tr s (obs.getD t "") : ℚ) : ℝ)

/-- C5: for every step `t` in `1 .. n-1` and every tag `s` in `states`,
the decoder stores in `viterbi[s][t]` the minimum over previous tags `p`
of `viterbi[p][t-1] - log2 P(s | p) - log2 P(observations[t] | s)`, and
in `backpointer[s][t]` the first `p` (in the first-occurrence order of
`states`) attaining that minimum: the selected `pstar` splits `states`
as `pre ++ pstar :: post`, no tag beats it, and every tag of `pre` is
strictly worse. -/
theorem c5_advance_recurrence (tr : Train) (prev : DP) (w : String)
    (obs : List String) (t : Nat) (s : String) (hs : s ∈ states tr)
    (ht1 : 1 ≤ t) (ht2 : t ≤ obs.length - 1) :
    ∃ pstar pre post,
      states tr = pre ++ pstar :: post ∧
      bb (advance tr (initialise tr prev w) obs) s t = pstar ∧
      -Real.logb 2 ((vv (advance tr (initialise tr prev w) obs) s t : ℚ) : ℝ)
          = candCost tr (advance tr (initialise tr prev w) obs) obs t s pstar ∧
      (∀ p ∈ states tr,
        candCost tr (advance tr (initialise tr prev w) obs) obs t s pstar
          ≤ candCost tr (advance tr (initialise tr prev w) obs) obs t s p) ∧
      (∀ p ∈ pre,
        candCost tr (advance tr (initialise tr prev w) obs) obs t s pstar
          < candCost tr (advance tr (initialise tr prev w) obs) obs t s p) := by
  have hadv : advance tr (initialise tr prev w) obs
      = afterSteps tr obs (initialise tr prev w) (obs.length - 1) := rfl
  rw [hadv]
  have hInv := inv_afterSteps tr prev w obs (obs.length - 1)
  obtain ⟨_, _, _, _, hrec, _⟩ := hInv s hs
  obtain ⟨hvt, hbt⟩ := hrec t ht1 ht2
  have hSne : states tr ≠ [] := List.ne_nil_of_mem hs
  have hclne : (states tr).map
      (fun p => (vv (afterSteps tr obs (initialise tr prev w)
          (obs.length - 1)) p (t - 1) * tprob tr p s
          * eprob tr s (obs.getD t ""), p)) ≠ [] :=
    fun h => hSne (List.map_eq_nil_iff.mp h)
  have hprod_pos : ∀ p ∈ states tr,
      0 < vv (afterSteps tr obs (initialise tr prev w) (obs.length - 1)) p
            (t - 1) * tprob tr p s * eprob tr s (obs.getD t "") := by
    intro p hp
    obtain ⟨_, _, _, _, _, hposp⟩ := hInv p hp
    exact mul_pos (mul_pos (hposp (t - 1) (by omega)).1 (tprob_pos tr p s))
      (eprob_pos tr s _)
  have hcc : ∀ p ∈ states tr,
      candCost tr (afterSteps tr obs (initialise tr prev w) (obs.length - 1))
          obs t s p
        = -Real.logb 2
            ((vv (afterSteps tr obs (initialise tr prev w) (obs.length - 1)) p
                (t - 1) * tprob tr p s * eprob tr s (obs.getD t "") : ℚ) : ℝ) := by
    intro p hp
    obtain ⟨_, _, _, _, _, hposp⟩ := hInv p hp
    have h1 : ((vv (afterSteps tr obs (initialise tr prev w) (obs.length - 1))
        p (t - 1) : ℚ) : ℝ) ≠ 0 := by
      exact_mod_cast ne_of_gt (hposp (t - 1) (by omega)).1
    have h2 : ((tprob tr p s : ℚ) : ℝ) ≠ 0 := by
      exact_mod_cast ne_of_gt (tprob_pos tr p s)
    have h3 : ((eprob tr s (obs.getD t "") : ℚ) : ℝ) ≠ 0 := by
      exact_mod_cast ne_of_gt (eprob_pos tr s _)
    have hcast : ((vv (afterSteps tr obs (initialise tr prev w)
          (obs.length - 1)) p (t - 1) * tprob tr p s
          * eprob tr s (obs.getD t "") : ℚ) : ℝ)
        = ((vv (afterSteps tr obs (initialise tr prev w) (obs.length - 1)) p
              (t - 1) : ℚ) : ℝ)
          * ((tprob tr p s : ℚ) : ℝ)
          * ((eprob tr s (obs.getD t "") : ℚ) : ℝ) := by
      push_cast
      ring
    rw [candCost, hcast, Real.logb_mul (mul_ne_zero h1 h2) h3,
      Real.logb_mul h1 h2]
    ring
  obtain ⟨preL, postL, hsplitL, hpreL⟩ := min_val_first hclne
  obtain ⟨l1, l2, hstates, hmap1, hmap2⟩ := List.map_eq_append_iff.mp hsplitL
  obtain ⟨pstar, l2x, hl2, hfp, _⟩ := List.map_eq_cons_iff.mp hmap2
  have hpstar_mem : pstar ∈ states tr := by
    rw [hstates, hl2]
    exact List.mem_append_right _ (List.mem_cons_self _ _)
  have hl1_sub : ∀ p ∈ l1, p ∈ states tr := by
    intro p hp
    rw [hstates]
    exact List.mem_append_left _ hp
  have hfp1 : (min_val ((states tr).map
      (fun p => (vv (afterSteps tr obs (initialise tr prev w)
          (obs.length - 1)) p (t - 1) * tprob tr p s
          * eprob tr s (obs.getD t ""), p)))).1
      = vv (afterSteps tr obs (initialise tr prev w) (obs.length - 1)) pstar
          (t - 1) * tprob tr pstar s * eprob tr s (obs.getD t "") := by
    rw [← hfp]
  have hfp2 : (min_val ((states tr).map
      (fun p => (vv (afterSteps tr obs (initialise tr prev w)
          (obs.length - 1)) p (t - 1) * tprob tr p s
          * eprob tr s (obs.getD t ""), p)))).2 = pstar := by
    rw [← hfp]
  refine ⟨pstar, l1, l2x, by rw [hstates, hl2], ?_, ?_, ?_, ?_⟩
  · rw [hbt]
    exact hfp2
  · have hv : vv (afterSteps tr obs (initialise tr prev w) (obs.length - 1)) s t
        = vv (afterSteps tr obs (initialise tr prev w) (obs.length - 1)) pstar
            (t - 1) * tprob tr pstar s * eprob tr s (obs.getD t "") := by
      rw [hvt]
      exact hfp1
    rw [hv, hcc pstar hpstar_mem]
  · intro p hp
    have h1 : vv (afterSteps tr obs (initialise tr prev w) (obs.length - 1)) p
          (t - 1) * tprob tr p s * eprob tr s (obs.getD t "")
        ≤ (min_val ((states tr).map
            (fun p => (vv (afterSteps tr obs (initialise tr prev w)
                (obs.length - 1)) p (t - 1) * tprob tr p s
                * eprob tr s (obs.getD t ""), p)))).1 :=
      le_min_val _ (List.mem_map_of_mem _ hp)
    rw [hfp1] at h1
    rw [hcc p hp, hcc pstar hpstar_mem]
    have hple : ((vv (afterSteps tr obs (initialise tr prev w)
          (obs.length - 1)) p (t - 1) * tprob tr p s
          * eprob tr s (obs.getD t "") : ℚ) : ℝ)
        ≤ ((vv (afterSteps tr obs (initialise tr prev w) (obs.length - 1))
            pstar (t - 1) * tprob tr pstar s
            * eprob tr s (obs.getD t "") : ℚ) : ℝ) := by
      exact_mod_cast h1
    have hppos : (0 : ℝ) < ((vv (afterSteps tr obs (initialise tr prev w)
          (obs.length - 1)) p (t - 1) * tprob tr p s
          * eprob tr s (obs.getD t "") : ℚ) : ℝ) := by
      exact_mod_cast hprod_pos p hp
    have := Real.logb_le_logb_of_le one_lt_two hppos hple
    linarith
  · intro p hp
    have hpS : p ∈ states tr := hl1_sub p hp
    have hfl : (vv (afterSteps tr obs (initialise tr prev w)
          (obs.length - 1)) p (t - 1) * tprob tr p s
          * eprob tr s (obs.getD t ""), p) ∈ preL := by
      rw [← hmap1]
      exact List.mem_map_of_mem _ hp
    have h1 : vv (afterSteps tr obs (initialise tr prev w) (obs.length - 1)) p
          (t - 1) * tprob tr p s * eprob tr s (obs.getD t "")
        < (min_val ((states tr).map
            (fun p => (vv (afterSteps tr obs (initialise tr prev w)
                (obs.length - 1)) p (t - 1) * tprob tr p s
                * eprob tr s (obs.getD t ""), p)))).1 :=
      hpreL _ hfl
    rw [hfp1] at h1
    rw [hcc p hpS, hcc pstar hpstar_mem]
    have hplt : ((vv (afterSteps tr obs (initialise tr prev w)
          (obs.length - 1)) p (t - 1) * tprob tr p s
          * eprob tr s (obs.getD t "") : ℚ) : ℝ)
        < ((vv (afterSteps tr obs (initialise tr prev w) (obs.length - 1))
            pstar (t - 1) * tprob tr pstar s
            * eprob tr s (obs.getD t "") : ℚ) : ℝ) := by
      exact_mod_cast h1
    have hppos : (0 : ℝ) < ((vv (afterSteps tr obs (initialise tr prev w)
          (obs.length - 1)) p (t - 1) * tprob tr p s
          * eprob tr s (obs.getD t "") : ℚ) : ℝ) := by
      exact_mod_cast hprod_pos p hpS
    have := Real.logb_lt_logb one_lt_two hppos hplt
    linarith

theorem c5_advance_recurrence_witness :
    1 ≤ (["dog", "runs"] : List String).length - 1 ∧
    (∃ pstar pre post,
      states exampleTrain = pre ++ pstar :: post ∧
      bb (advance exampleTrain (initialise exampleTrain emptyDP "dog")
          ["dog", "runs"]) "NOUN" 1 = pstar ∧
      -Real.logb 2 ((vv (advance exampleTrain
            (initialise exampleTrain emptyDP "dog") ["dog", "runs"])
            "NOUN" 1 : ℚ) : ℝ)
          = candCost exampleTrain
              (advance exampleTrain (initialise exampleTrain emptyDP "dog")
                ["dog", "runs"]) ["dog", "runs"] 1 "NOUN" pstar ∧
      (∀ p ∈ states exampleTrain,
        candCost exampleTrain
            (advance exampleTrain (initialise exampleTrain emptyDP "dog")
              ["dog", "runs"]) ["dog", "runs"] 1 "NOUN" pstar
          ≤ candCost exampleTrain
              (advance exampleTrain (initialise exampleTrain emptyDP "dog")
                ["dog", "runs"]) ["dog", "runs"] 1 "NOUN" p) ∧
      (∀ p ∈ pre,
        candCost exampleTrain
            (advance exampleTrain (initialise exampleTrain emptyDP "dog")
              ["dog", "runs"]) ["dog", "runs"] 1 "NOUN" pstar
          < candCost exampleTrain
              (advance exampleTrain (initialise exampleTrain emptyDP "dog")
                ["dog", "runs"]) ["dog", "runs"] 1 "NOUN" p)) :=
  ⟨by decide,
   c5_advance_recurrence exampleTrain emptyDP "dog" ["dog", "runs"] 1 "NOUN"
     (by decide) le_rfl (by decide)⟩

/-- Modelled from the spec (the claim's reference quantity): the
multiset of adjacent tag pairs within each per-sentence tag sequence
`[<s>, tag_1, ..., tag_n, </s>]`, concatenated over the corpus. -/
def sentenceBigrams (tr : Train) : List (String × String) :=
  (tr.map (fun s => bigrams ("<s>" :: (s.map Prod.snd ++ ["</s>"])))).flatten

theorem bigrams_cons_cons {α : Type} (a b : α) (l : List α) :
    bigrams (a :: b :: l) = (a, b) :: bigrams (b :: l) := rfl

theorem getLastD_of_ne_nil {α : Type} {l : List α} (h : l ≠ []) (d1 d2 : α) :
    l.getLastD d1 = l.getLastD d2 := by
  cases l with
  | nil => exact absurd rfl h
  | cons a l => rw [List.getLastD_cons, List.getLastD_cons]

/-- Splitting the bigrams of a concatenation: the junction pair joins
the last element of the left part with the head of the right part. -/
theorem bigrams_append_cons {α : Type} (d : α) :
    ∀ (xs : List α), xs ≠ [] → ∀ (y : α) (ys : List α),
    bigrams (xs ++ y :: ys)
      = bigrams xs ++ (xs.getLastD d, y) :: bigrams (y :: ys) := by
  intro xs
  induction xs with
  | nil => intro h; exact absurd rfl h
  | cons x xs ih =>
      intro _ y ys
      cases xs with
      | nil => rfl
      | cons x2 xs2 =>
          have h2 : (x2 :: xs2 : List α) ≠ [] := by simp
          have e1 : bigrams ((x :: x2 :: xs2) ++ y :: ys)
              = (x, x2) :: bigrams ((x2 :: xs2) ++ y :: ys) := rfl
          have e3 : (x :: x2 :: xs2).getLastD d = (x2 :: xs2).getLastD d := by
            rw [List.getLastD_cons]
            exact getLastD_of_ne_nil h2 x d
          rw [e1, ih h2 y ys, e3]
          rfl

/-- The flattened tag stream of a non-empty corpus starts with the
bracketed tag sequence of its first sentence. -/
theorem transTags_cons (s : List (String × String)) (rest : Train) :
    (tags_words (s :: rest)).map Prod.fst
      = ("<s>" :: (s.map Prod.snd ++ ["</s>"]))
        ++ (tags_words rest).map Prod.fst := by
  show ((("<s>", "<s>") :: (s.map (fun p => (p.2, p.1)) ++ [("</s>", "</s>")]))
      ++ tags_words rest).map Prod.fst = _
  rw [List.map_append, List.map_cons, List.map_append, List.map_map]
  rfl

/-- In a bracketed sentence whose real tags avoid `</s>`, no bigram
starts with `</s>` (it only occurs as the final element). -/
theorem end_fst_not_mem_bigrams :
    ∀ (tags : List String) (prev : String), prev ≠ "</s>" →
      "</s>" ∉ tags → ∀ b : String,
      ("</s>", b) ∉ bigrams (prev :: (tags ++ ["</s>"])) := by
  intro tags
  induction tags with
  | nil =>
      intro prev hprev _ b hmem
      have hmem2 : (("</s>", b) : String × String) ∈ [(prev, "</s>")] := hmem
      have heq := List.mem_singleton.mp hmem2
      exact hprev (congrArg Prod.fst heq).symm
  | cons t ts ih =>
      intro prev hprev hnot b hmem
      have hmem2 : (("</s>", b) : String × String)
          ∈ (prev, t) :: bigrams (t :: (ts ++ ["</s>"])) := hmem
      rcases List.mem_cons.mp hmem2 with heq | hmem3
      · exact hprev (congrArg Prod.fst heq).symm
      · have ht : t ≠ "</s>" := fun h => hnot (h ▸ List.mem_cons_self _ _)
        have hts : "</s>" ∉ ts := fun h => hnot (List.mem_cons_of_mem _ h)
        exact ih t ht hts b hmem3

/-- C3 counterexample: with two training sentences, the code counts the
cross-sentence bigram `('</s>', '<s>')` once, while the per-sentence
bigram multiset contains no pair keyed by `'</s>'` — the two counts are
not equal. -/
theorem c3_counterexample :
    (transitionData [[("x", "A")], [("y", "B")]]).count ("</s>", "<s>") = 1 ∧
    (sentenceBigrams [[("x", "A")], [("y", "B")]]).count ("</s>", "<s>") = 0 := by
  decide

/-- C3 amended: for every condition other than `'</s>'`, the transition
frequency counts equal exactly the per-sentence adjacent-pair multiset;
the only extra bigrams the code counts are the cross-sentence junctions
`('</s>', '<s>')`, one per consecutive sentence pair (so
`#sentences - 1` of them), provided no training tag is a boundary
symbol.  In particular no real tag of one sentence is ever paired with a
tag of a different sentence. -/
theorem c3_transition_counts (tr : Train)
    (hclean : ∀ sent ∈ tr, ∀ p ∈ sent, p.2 ≠ "<s>" ∧ p.2 ≠ "</s>") :
    (∀ a b : String, a ≠ "</s>" →
      (transitionData tr).count (a, b) = (sentenceBigrams tr).count (a, b)) ∧
    (transitionData tr).count ("</s>", "<s>") = tr.length - 1 ∧
    (∀ b : String, b ≠ "<s>" →
      (transitionData tr).count ("</s>", b) = 0) := by
  induction tr with
  | nil =>
      refine ⟨?_, ?_, ?_⟩ <;> intros <;> rfl
  | cons s rest ih =>
      have hclean_s : ∀ p ∈ s, p.2 ≠ "<s>" ∧ p.2 ≠ "</s>" :=
        hclean s (List.mem_cons_self _ _)
      have hclean_rest : ∀ sent ∈ rest, ∀ p ∈ sent,
          p.2 ≠ "<s>" ∧ p.2 ≠ "</s>" :=
        fun sent hs => hclean sent (List.mem_cons_of_mem _ hs)
      obtain ⟨ih1, ih2, ih3⟩ := ih hclean_rest
      have hend_notin : "</s>" ∉ s.map Prod.snd := by
        intro h
        obtain ⟨p, hp, hpe⟩ := List.mem_map.mp h
        exact (hclean_s p hp).2 hpe
      have hjunk : ∀ b : String,
          ("</s>", b) ∉ bigrams ("<s>" :: (s.map Prod.snd ++ ["</s>"])) :=
        fun b => end_fst_not_mem_bigrams (s.map Prod.snd) "<s>" (by decide)
          hend_notin b
      have htd : transitionData (s :: rest)
          = bigrams (("<s>" :: (s.map Prod.snd ++ ["</s>"]))
              ++ (tags_words rest).map Prod.fst) := by
        rw [transitionData, transTags_cons]
      have hsb : sentenceBigrams (s :: rest)
          = bigrams ("<s>" :: (s.map Prod.snd ++ ["</s>"]))
            ++ sentenceBigrams rest := rfl
      cases rest with
      | nil =>
          have htd2 : transitionData [s]
              = bigrams ("<s>" :: (s.map Prod.snd ++ ["</s>"])) := by
            rw [htd, show (tags_words ([] : Train)).map Prod.fst = [] from rfl,
              List.append_nil]
          refine ⟨?_, ?_, ?_⟩
          · intro a b _
            rw [htd2, hsb,
              show sentenceBigrams ([] : Train) = [] from rfl, List.append_nil]
          · rw [htd2, List.count_eq_zero.mpr (hjunk "<s>")]
            rfl
          · intro b _
            rw [htd2]
            exact List.count_eq_zero.mpr (hjunk b)
      | cons s2 rest2 =>
          have hzs : (tags_words (s2 :: rest2)).map Prod.fst
              = "<s>" :: ((s2.map Prod.snd ++ ["</s>"])
                  ++ (tags_words rest2).map Prod.fst) := by
            rw [transTags_cons]
            rfl
          have hblock_ne : ("<s>" :: (s.map Prod.snd ++ ["</s>"]))
              ≠ ([] : List String) := by simp
          have hlast : ("<s>" :: (s.map Prod.snd ++ ["</s>"])).getLastD "<s>"
              = "</s>" := by
            rw [List.getLastD_cons, List.getLastD_eq_getLast?,
              List.getLast?_concat]
            rfl
          have htd4 : bigrams ("<s>" :: ((s2.map Prod.snd ++ ["</s>"])
                ++ (tags_words rest2).map Prod.fst))
              = transitionData (s2 :: rest2) := by
            rw [transitionData, hzs]
          have htd3 : transitionData (s :: s2 :: rest2)
              = bigrams ("<s>" :: (s.map Prod.snd ++ ["</s>"]))
                ++ ("</s>", "<s>") :: transitionData (s2 :: rest2) := by
            rw [htd, hzs,
              bigrams_append_cons "<s>" _ hblock_ne _ _, hlast, htd4]
          refine ⟨?_, ?_, ?_⟩
          · intro a b hne
            have hif : ((("</s>", "<s>") : String × String) == (a, b))
                = false :=
              beq_eq_false_iff_ne.mpr (fun h => hne (congrArg Prod.fst h).symm)
            rw [htd3, hsb, List.count_append, List.count_append,
              List.count_cons, ih1 a b hne, hif]
            simp
          · rw [htd3, List.count_append, List.count_cons, ih2,
              List.count_eq_zero.mpr (hjunk "<s>")]
            simp only [beq_self_eq_true, if_true, List.length_cons]
            omega
          · intro b hb
            have hif : ((("</s>", "<s>") : String × String) == ("</s>", b))
                = false :=
              beq_eq_false_iff_ne.mpr
                (fun h => hb (congrArg Prod.snd h).symm)
            rw [htd3, List.count_append, List.count_cons, ih3 b hb,
              List.count_eq_zero.mpr (hjunk b), hif]
            simp

theorem c3_transition_counts_witness :
    (transitionData exampleTrain).count ("</s>", "<s>")
      = exampleTrain.length - 1 :=
  (c3_transition_counts exampleTrain (by decide)).2.1

end HMM
